import Mathlib

/-!
Verification of the DeepDiveExtension repository: a shallow embedding of the
backend server helpers (response normalisation, rate limiting, search tier
selection), the extension-side cache manager and deep-dive handler, and the
content-script article truncation, together with theorems settling the
specification claims.

JavaScript strings are modelled as Lean strings (lists of characters);
machine time stamps are natural numbers and JS number arithmetic that can go
negative is carried out on integers.  Fallible steps (JSON parsing,
validation that can throw) return Option.  Recursions that are not
structural in the source are given explicit fuel equal to the input length,
which is always sufficient because every recursive call strictly shrinks the
input; this keeps every definition computable by the kernel.
-/

namespace DeepDive

/-! ## JavaScript string primitives -/

/-- Character class of the JavaScript regular-expression class backslash-s and
of the characters removed by String.prototype.trim (ASCII whitespace plus
no-break space and BOM; the rarer Unicode space characters are omitted from
the model). -/
def isJsWs (c : Char) : Bool :=
  c = ' ' || c = '\t' || c = '\n' || c = '\r' ||
  c = '\x0b' || c = '\x0c' || c = ' ' || c = '﻿'

/-- Model of String.prototype.trim on character lists. -/
def jsTrimL (l : List Char) : List Char :=
  ((l.dropWhile isJsWs).reverse.dropWhile isJsWs).reverse

/-- Model of String.prototype.trim. -/
def jsTrim (s : String) : String := ⟨jsTrimL s.data⟩

/-- Model of String.prototype.toLowerCase (ASCII case folding). -/
def jsToLower (s : String) : String := ⟨s.data.map Char.toLower⟩

/-- Substring containment on character lists, the semantics of
String.prototype.includes. -/
def containsSub : List Char → List Char → Bool
  | pat, [] => pat.isEmpty
  | pat, c :: rest => pat.isPrefixOf (c :: rest) || containsSub pat rest

/-- Model of String.prototype.includes. -/
def strIncludes (s pat : String) : Bool := containsSub pat.data s.data

/-! ## CacheManager (extension popup script)

chrome.storage.local is modelled as an association list from keys to cache
entries; chrome.storage.local.set overwrites the binding of the written key
and leaves every other binding unchanged.  Date.now() is passed explicitly
as a natural-number timestamp. -/

/-- A cache entry as stored by CacheManager.set: the cached value, the write
timestamp and the time-to-live in milliseconds. -/
structure CacheEntry (α : Type) where
  value : α
  timestamp : Nat
  ttl : Nat
  deriving DecidableEq, Repr

/-- The chrome.storage.local area visible to CacheManager. -/
def CacheStorage (α : Type) := List (String × CacheEntry α)

/-- Model of CacheManager.get: the stored entry for the key, or none. -/
def cacheGet {α : Type} (s : CacheStorage α) (key : String) : Option (CacheEntry α) :=
  (s.find? (fun p => p.1 == key)).map (·.2)

/-- Model of CacheManager.set: store the value with the current timestamp and
the given ttl, overwriting any previous binding of the key. -/
def cacheSet {α : Type} (s : CacheStorage α) (key : String) (v : α) (ttl : Nat)
    (now : Nat) : CacheStorage α :=
  (key, ⟨v, now, ttl⟩) :: s.filter (fun p => p.1 != key)

/-- Model of CacheManager.isValid: false for a missing key, otherwise whether
the entry's age (Date.now() minus its timestamp, as a JS number, hence an
integer) is strictly below its ttl. -/
def cacheIsValid {α : Type} (s : CacheStorage α) (key : String) (now : Nat) : Bool :=
  match cacheGet s key with
  | none => false
  | some e => ((now : Int) - (e.timestamp : Int)) < (e.ttl : Int)

/-- Model of CacheManager.generateCacheKey.  The SHA-256 digest computed by
simpleHash through crypto.subtle is not part of the repository, so the hash
is a parameter; the key is the URL, a colon, and the hash of the first 1000
characters of the text. -/
def generateCacheKey (hash : String → String) (url text : String) : String :=
  url ++ ":" ++ hash ⟨text.data.take 1000⟩

/-! ## RateLimiter (backend rate-limiter module) -/

/-- A per-identifier record in the rate limiter store: request count in the
current window and the window's reset time. -/
structure RLRecord where
  count : Nat
  resetTime : Nat
  deriving DecidableEq, Repr

/-- The in-memory rate limiter: window length, request cap and the store
mapping identifiers to records. -/
structure RateLimiter where
  windowMs : Nat
  maxRequests : Nat
  store : List (String × RLRecord)
  deriving DecidableEq, Repr

/-- The value returned by RateLimiter.check.  The remaining count is a JS
number that the source computes by subtraction, so it is an integer. -/
structure CheckResult where
  allowed : Bool
  remaining : Int
  resetTime : Nat
  deriving DecidableEq, Repr

/-- Store lookup modelling Map.prototype.get. -/
def rlLookup (st : List (String × RLRecord)) (id : String) : Option RLRecord :=
  (st.find? (fun p => p.1 == id)).map (·.2)

/-- Store update modelling Map.prototype.set (overwrite the key's binding). -/
def rlSet (st : List (String × RLRecord)) (id : String) (r : RLRecord) :
    List (String × RLRecord) :=
  (id, r) :: st.filter (fun p => p.1 != id)

/-- Model of the RateLimiter constructor: a falsy (zero) option falls back to
the default, exactly as the JavaScript logical-or does. -/
def mkRateLimiter (windowMs maxRequests : Nat) : RateLimiter :=
  { windowMs := if windowMs = 0 then 60000 else windowMs
    maxRequests := if maxRequests = 0 then 10 else maxRequests
    store := [] }

/-- Model of RateLimiter.check at the given current time: create a fresh
record when none exists or the window has expired, reject without counting
when the cap is reached, and otherwise increment the counter. -/
def RateLimiter.check (rl : RateLimiter) (id : String) (now : Nat) :
    CheckResult × RateLimiter :=
  match rlLookup rl.store id with
  | none =>
      (⟨true, (rl.maxRequests : Int) - 1, now + rl.windowMs⟩,
       { rl with store := rlSet rl.store id ⟨1, now + rl.windowMs⟩ })
  | some record =>
      if record.resetTime ≤ now then
        (⟨true, (rl.maxRequests : Int) - 1, now + rl.windowMs⟩,
         { rl with store := rlSet rl.store id ⟨1, now + rl.windowMs⟩ })
      else if rl.maxRequests ≤ record.count then
        (⟨false, 0, record.resetTime⟩, rl)
      else
        (⟨true, (rl.maxRequests : Int) - (record.count + 1 : Nat),
          record.resetTime⟩,
         { rl with store := rlSet rl.store id ⟨record.count + 1, record.resetTime⟩ })

/-- Model of RateLimiter.cleanup: drop every record whose window has expired. -/
def RateLimiter.cleanup (rl : RateLimiter) (now : Nat) : RateLimiter :=
  { rl with store := rl.store.filter (fun p => !(p.2.resetTime ≤ now)) }

/-- Model of RateLimiter.reset: clear the store. -/
def RateLimiter.resetAll (rl : RateLimiter) : RateLimiter :=
  { rl with store := [] }

/-- One externally observable rate-limiter operation. -/
inductive RLOp where
  | check (id : String) (now : Nat)
  | cleanup (now : Nat)
  | resetAll
  deriving DecidableEq, Repr

/-- Run a sequence of operations against a rate limiter. -/
def runRL (rl : RateLimiter) : List RLOp → RateLimiter
  | [] => rl
  | RLOp.check id now :: ops => runRL (rl.check id now).2 ops
  | RLOp.cleanup now :: ops => runRL (rl.cleanup now) ops
  | RLOp.resetAll :: ops => runRL rl.resetAll ops

/-- Run successive check calls for one identifier at the given times,
collecting the allowed flags. -/
def runChecks (rl : RateLimiter) (id : String) : List Nat → List Bool × RateLimiter
  | [] => ([], rl)
  | now :: ts =>
      let (res, rl') := rl.check id now
      let (flags, rl'') := runChecks rl' id ts
      (res.allowed :: flags, rl'')

/-! ## JSON values and JSON.parse

JSON.parse is a platform builtin, not repository code; it is modelled by an
executable recursive-descent parser over the JSON grammar.  The numeric
value of a JSON number is modelled by its integer part (no claim depends on
the value of a number, only on its type tag).  The parser carries fuel,
always sufficient for well-formed inputs because every two fuel steps
consume at least one character. -/

/-- A parsed JSON value. -/
inductive Json where
  | null
  | bool (b : Bool)
  | num (n : Int)
  | str (s : String)
  | arr (items : List Json)
  | obj (fields : List (String × Json))

/-- JSON insignificant whitespace. -/
def isJsonWs (c : Char) : Bool :=
  c = ' ' || c = '\t' || c = '\n' || c = '\r'

/-- Value of a hexadecimal digit. -/
def hexVal (c : Char) : Option Nat :=
  if '0' ≤ c ∧ c ≤ '9' then some (c.toNat - 48)
  else if 'a' ≤ c ∧ c ≤ 'f' then some (c.toNat - 87)
  else if 'A' ≤ c ∧ c ≤ 'F' then some (c.toNat - 55)
  else none

/-- Natural number denoted by a list of decimal digits. -/
def digitsToNat (ds : List Char) : Nat :=
  ds.foldl (fun acc c => acc * 10 + (c.toNat - 48)) 0

/-- Parse a JSON number at the head of the input (integer part kept,
fraction and exponent checked syntactically and discarded). -/
def parseNumber (l : List Char) : Option (Json × List Char) :=
  let (neg, l1) := match l with
    | '-' :: r => (true, r)
    | _ => (false, l)
  let ds := l1.takeWhile Char.isDigit
  let r1 := l1.dropWhile Char.isDigit
  if ds.isEmpty then none
  else if ds.head? = some '0' ∧ 1 < ds.length then none
  else
    let (fracOk, r2) : Bool × List Char := match r1 with
      | '.' :: r => (!(r.takeWhile Char.isDigit).isEmpty, r.dropWhile Char.isDigit)
      | _ => (true, r1)
    let (expOk, r3) : Bool × List Char := match r2 with
      | 'e' :: r =>
          let r' := match r with | '+' :: r'' => r'' | '-' :: r'' => r'' | _ => r
          (!(r'.takeWhile Char.isDigit).isEmpty, r'.dropWhile Char.isDigit)
      | 'E' :: r =>
          let r' := match r with | '+' :: r'' => r'' | '-' :: r'' => r'' | _ => r
          (!(r'.takeWhile Char.isDigit).isEmpty, r'.dropWhile Char.isDigit)
      | _ => (true, r2)
    if fracOk && expOk then
      some (.num (if neg then -(digitsToNat ds : Int) else (digitsToNat ds : Int)), r3)
    else none

mutual

/-- Parse one JSON value after skipping leading whitespace. -/
def parseValue : Nat → List Char → Option (Json × List Char)
  | 0, _ => none
  | fuel + 1, l =>
      match l.dropWhile isJsonWs with
      | [] => none
      | c :: rest =>
          if c = 'n' then
            if ['u', 'l', 'l'].isPrefixOf rest then some (.null, rest.drop 3) else none
          else if c = 't' then
            if ['r', 'u', 'e'].isPrefixOf rest then some (.bool true, rest.drop 3) else none
          else if c = 'f' then
            if ['a', 'l', 's', 'e'].isPrefixOf rest then some (.bool false, rest.drop 4)
            else none
          else if c = '"' then
            (parseStringChars fuel rest).map (fun p => (.str ⟨p.1⟩, p.2))
          else if c = '[' then
            match rest.dropWhile isJsonWs with
            | ']' :: r => some (.arr [], r)
            | _ => (parseItems fuel rest).map (fun p => (.arr p.1, p.2))
          else if c = '{' then
            match rest.dropWhile isJsonWs with
            | '}' :: r => some (.obj [], r)
            | _ => (parseFields fuel rest).map (fun p => (.obj p.1, p.2))
          else parseNumber (c :: rest)

/-- Parse the characters of a JSON string after its opening quote. -/
def parseStringChars : Nat → List Char → Option (List Char × List Char)
  | 0, _ => none
  | fuel + 1, l =>
      match l with
      | [] => none
      | '"' :: r => some ([], r)
      | '\\' :: e :: r =>
          if e = 'u' then
            match r with
            | a :: b :: c :: d :: r2 =>
                match hexVal a, hexVal b, hexVal c, hexVal d with
                | some va, some vb, some vc, some vd =>
                    (parseStringChars fuel r2).map (fun p =>
                      (Char.ofNat (((va * 16 + vb) * 16 + vc) * 16 + vd) :: p.1, p.2))
                | _, _, _, _ => none
            | _ => none
          else
            match
              (if e = '"' then some '"'
               else if e = '\\' then some '\\'
               else if e = '/' then some '/'
               else if e = 'b' then some '\x08'
               else if e = 'f' then some '\x0c'
               else if e = 'n' then some '\n'
               else if e = 'r' then some '\r'
               else if e = 't' then some '\t'
               else none) with
            | some d => (parseStringChars fuel r).map (fun p => (d :: p.1, p.2))
            | none => none
      | c :: r =>
          if c.toNat < 0x20 then none
          else (parseStringChars fuel r).map (fun p => (c :: p.1, p.2))

/-- Parse the comma-separated items of a non-empty JSON array. -/
def parseItems : Nat → List Char → Option (List Json × List Char)
  | 0, _ => none
  | fuel + 1, l =>
      match parseValue fuel l with
      | none => none
      | some (v, r) =>
          match r.dropWhile isJsonWs with
          | ',' :: r2 => (parseItems fuel r2).map (fun p => (v :: p.1, p.2))
          | ']' :: r2 => some ([v], r2)
          | _ => none

/-- Parse the comma-separated members of a non-empty JSON object. -/
def parseFields : Nat → List Char → Option (List (String × Json) × List Char)
  | 0, _ => none
  | fuel + 1, l =>
      match l.dropWhile isJsonWs with
      | '"' :: r =>
          match parseStringChars fuel r with
          | none => none
          | some (key, r1) =>
              match r1.dropWhile isJsonWs with
              | ':' :: r2 =>
                  match parseValue fuel r2 with
                  | none => none
                  | some (v, r3) =>
                      match r3.dropWhile isJsonWs with
                      | ',' :: r4 =>
                          (parseFields fuel r4).map (fun p => ((⟨key⟩, v) :: p.1, p.2))
                      | '}' :: r4 => some ([(⟨key⟩, v)], r4)
                      | _ => none
              | _ => none
      | _ => none

end

/-- Model of JSON.parse: parse one value and require only whitespace after
it; any failure models a thrown SyntaxError. -/
def jsonParse (s : String) : Option Json :=
  match parseValue (2 * s.data.length + 2) s.data with
  | some (v, rest) => if rest.dropWhile isJsonWs = [] then some v else none
  | none => none

/-- Property access on a parsed JSON object: JSON.parse keeps the last of
duplicate keys, so the rightmost binding wins. -/
def objGet (fields : List (String × Json)) (k : String) : Option Json :=
  (fields.reverse.find? (fun p => p.1 == k)).map (·.2)

/-! ## validateAndNormalizeResponse (backend server) -/

/-- A related article as produced by the backend. -/
structure Article where
  title : String
  url : String
  deriving DecidableEq, Repr

/-- A term/definition pair as produced by the backend. -/
structure Definition where
  term : String
  definition : String
  deriving DecidableEq, Repr

/-- The arguments object of an analysis result. -/
structure ArgumentLists where
  main : List String
  counter : List String
  deriving DecidableEq, Repr

/-- The normalized analysis result returned by parseGeminiResponse. -/
structure AnalysisResult where
  relatedArticles : List Article
  definitions : List Definition
  arguments : ArgumentLists
  deriving DecidableEq, Repr

/-- The denylist of obviously fake domains used by the backend. -/
def suspiciousPatterns : List String :=
  ["example.com", "placeholder.com", "yoursite.com", "website.com",
   "test.com", "sample.com"]

/-- Whether the lowercased URL contains any denylist entry as a substring. -/
def isSuspiciousUrl (url : String) : Bool :=
  suspiciousPatterns.any (fun pat => strIncludes (jsToLower url) pat)

/-- The filter-and-map step of the relatedArticles normalisation: keep an
entry only when it is an object with non-blank string title and url, and
trim both. -/
def validArticle? (j : Json) : Option Article :=
  match j with
  | .obj fields =>
      match objGet fields "title", objGet fields "url" with
      | some (.str t), some (.str u) =>
          if 0 < (jsTrim t).length ∧ 0 < (jsTrim u).length then
            some ⟨jsTrim t, jsTrim u⟩
          else none
      | _, _ => none
  | _ => none

/-- The filter-and-map step of the definitions normalisation. -/
def validDefinition? (j : Json) : Option Definition :=
  match j with
  | .obj fields =>
      match objGet fields "term", objGet fields "definition" with
      | some (.str t), some (.str d) =>
          if 0 < (jsTrim t).length ∧ 0 < (jsTrim d).length then
            some ⟨jsTrim t, jsTrim d⟩
          else none
      | _, _ => none
  | _ => none

/-- The filter-and-map step of an argument list: keep non-blank strings,
trimmed. -/
def validArgument? (j : Json) : Option String :=
  match j with
  | .str s => if 0 < (jsTrim s).length then some (jsTrim s) else none
  | _ => none

/-- Normalise an argument list field: when it is an array, keep the first 20
non-blank strings, trimmed; otherwise the empty list. -/
def normalizeArgumentList (j : Option Json) : List String :=
  match j with
  | some (.arr items) => (items.filterMap validArgument?).take 20
  | _ => []

/-- Normalise the relatedArticles field: valid entries, trimmed, capped at
10, then stripped of suspicious URLs. -/
def normalizeRelated (j : Option Json) : List Article :=
  match j with
  | some (.arr items) =>
      ((items.filterMap validArticle?).take 10).filter
        (fun a => !isSuspiciousUrl a.url)
  | _ => []

/-- Normalise the definitions field: valid entries, trimmed, capped at 20. -/
def normalizeDefinitions (j : Option Json) : List Definition :=
  match j with
  | some (.arr items) => (items.filterMap validDefinition?).take 20
  | _ => []

/-- Read one argument list out of the arguments object. -/
def argumentsField (fields : List (String × Json)) (name : String) : List String :=
  match objGet fields "arguments" with
  | some (.obj argFields) => normalizeArgumentList (objGet argFields name)
  | _ => []

/-- Model of validateAndNormalizeResponse.  A non-object argument (in the
JavaScript sense: null, or typeof other than object) makes the source throw,
modelled by none.  A JSON array is typeof object in JavaScript, and all its
property reads yield undefined, so it normalises to the empty result. -/
def validateAndNormalizeResponse (data : Json) : Option AnalysisResult :=
  match data with
  | .obj fields =>
      some ⟨normalizeRelated (objGet fields "relatedArticles"),
            normalizeDefinitions (objGet fields "definitions"),
            ⟨argumentsField fields "main", argumentsField fields "counter"⟩⟩
  | .arr _ => some ⟨[], [], ⟨[], []⟩⟩
  | _ => none

/-! ## stripCitations (backend server)

The source performs a global regex replacement of citation markers
(optionally whitespace-surrounded bracketed digit runs) by a single space,
then collapses whitespace runs to single spaces and trims.  The scan is
modelled with fuel equal to the input length, sufficient because every step
consumes at least one character. -/

/-- Match one occurrence of the citation-marker pattern (whitespace run,
an opening bracket, a non-empty digit run, a closing bracket, a whitespace
run) at the head of the input, returning the remainder on success. -/
def matchCitAt (s : List Char) : Option (List Char) :=
  let s1 := s.dropWhile isJsWs
  if s1.head? = some '[' then
    let t := s1.tail
    if (t.takeWhile Char.isDigit).isEmpty then none
    else
      let t2 := t.dropWhile Char.isDigit
      if t2.head? = some ']' then some (t2.tail.dropWhile isJsWs) else none
  else none

/-- Fueled scan of the global citation-marker replacement: at each position
either replace a whole marker occurrence by a single space or keep the
character. -/
def stripCitF : Nat → List Char → List Char
  | 0, l => l
  | _ + 1, [] => []
  | fuel + 1, c :: rest =>
      match matchCitAt (c :: rest) with
      | some rest2 => ' ' :: stripCitF fuel rest2
      | none => c :: stripCitF fuel rest

/-- The citation-marker replacement pass on a character list. -/
def stripCitL (l : List Char) : List Char := stripCitF l.length l

/-- Fueled scan replacing every whitespace run by a single space. -/
def collapseWsF : Nat → List Char → List Char
  | 0, l => l
  | _ + 1, [] => []
  | fuel + 1, c :: rest =>
      if isJsWs c then ' ' :: collapseWsF fuel (rest.dropWhile isJsWs)
      else c :: collapseWsF fuel rest

/-- The whitespace-collapsing pass on a character list. -/
def collapseWsL (l : List Char) : List Char := collapseWsF l.length l

/-- Model of stripCitations on a single string: remove citation markers,
collapse whitespace and trim. -/
def stripCitationsStr (s : String) : String :=
  ⟨jsTrimL (collapseWsL (stripCitL s.data))⟩

/-- Model of stripCitations on a normalized result.  The source function
recurses over an arbitrary JavaScript value; on the fixed record shape of a
normalized analysis result that recursion is exactly this string-wise map. -/
def stripCitationsResult (r : AnalysisResult) : AnalysisResult :=
  ⟨r.relatedArticles.map (fun a => ⟨stripCitationsStr a.title, stripCitationsStr a.url⟩),
   r.definitions.map (fun d => ⟨stripCitationsStr d.term, stripCitationsStr d.definition⟩),
   ⟨r.arguments.main.map stripCitationsStr,
    r.arguments.counter.map stripCitationsStr⟩⟩

/-! ## parseGeminiResponse (backend server)

The three extraction regexes are modelled as executable scanners with the
semantics of String.prototype.match on the source patterns: leftmost match,
greedy whitespace with backtracking, lazy body capture up to the first
closing fence, and for the brace pattern the span from the first opening
brace to the last closing brace after it. -/

/-- Split the input at the first occurrence of the pattern, returning the
part before it and the part after it. -/
def firstSplitOn (pat : List Char) : List Char → Option (List Char × List Char)
  | [] => if pat.isEmpty then some ([], []) else none
  | c :: rest =>
      if pat.isPrefixOf (c :: rest) then some ([], (c :: rest).drop pat.length)
      else (firstSplitOn pat rest).map (fun p => (c :: p.1, p.2))

/-- Length of the leading whitespace run. -/
def wsRunLen (l : List Char) : Nat := (l.takeWhile isJsWs).length

/-- Try to match, right after a code fence, a newline at offset k followed by
the lazy body and the closing fence; the body stops at the first later
newline-backtick-backtick-backtick sequence. -/
def fenceBodyAt (s : List Char) (k : Nat) : Option (List Char) :=
  if s.get? k = some '\n' then
    (firstSplitOn ['\n', '`', '`', '`'] (s.drop (k + 1))).map (·.1)
  else none

/-- Greedy-with-backtracking search for the newline ending the whitespace
run after a code fence: offsets are tried from k downwards, as the regex
engine does for a greedy whitespace star. -/
def tryFenceAt (s : List Char) : Nat → Option (List Char)
  | 0 => fenceBodyAt s 0
  | k + 1 => fenceBodyAt s (k + 1) <|> tryFenceAt s k

/-- Leftmost-match scan for a fenced code block: at each position where the
opening fence matches, attempt the whitespace-newline-body-closing-fence
tail, otherwise advance one character. -/
def scanFence (fence : List Char) : List Char → Option (List Char)
  | [] => none
  | c :: rest =>
      (if fence.isPrefixOf (c :: rest) then
        let after := (c :: rest).drop fence.length
        tryFenceAt after (wsRunLen after)
      else none) <|> scanFence fence rest

/-- Capture group of the json code-fence pattern on the response text. -/
def extractJsonCodeBlock (text : String) : Option String :=
  (scanFence ['`', '`', '`', 'j', 's', 'o', 'n'] text.data).map (⟨·⟩)

/-- Capture group of the generic code-fence pattern on the response text. -/
def extractCodeBlock (text : String) : Option String :=
  (scanFence ['`', '`', '`'] text.data).map (⟨·⟩)

/-- Drop everything before the first occurrence of the character, keeping
the occurrence itself. -/
def dropBeforeFirst (c : Char) : List Char → Option (List Char)
  | [] => none
  | x :: xs => if x = c then some (x :: xs) else dropBeforeFirst c xs

/-- The longest prefix ending at the last occurrence of the character. -/
def takeToLast (c : Char) : List Char → Option (List Char)
  | [] => none
  | x :: xs =>
      match takeToLast c xs with
      | some t => some (x :: t)
      | none => if x = c then some [x] else none

/-- The greedy brace pattern: from the first opening brace to the last
closing brace strictly after it. -/
def extractBraces (text : String) : Option String :=
  ((dropBeforeFirst '{' text.data).bind fun r =>
    match r with
    | x :: xs => (takeToLast '}' xs).map (fun t => x :: t)
    | [] => none).map (⟨·⟩)

/-- One extraction tier: extract a candidate substring, JSON-parse it and
validate it; any failure (no match, parse error, validation throw) falls
through to the next tier. -/
def runTier (extract : String → Option String) (text : String) :
    Option AnalysisResult :=
  (extract text).bind fun s => (jsonParse s).bind validateAndNormalizeResponse

/-- The four JSON-extraction tiers of parseGeminiResponse in source order:
json code fence, generic code fence, brace span, whole text. -/
def parseTiers (text : String) : Option AnalysisResult :=
  runTier extractJsonCodeBlock text <|> runTier extractCodeBlock text <|>
    runTier extractBraces text <|> (jsonParse text).bind validateAndNormalizeResponse

/-- The fallback structure returned when every tier fails: the first 500
characters of the raw text (with an ellipsis when longer) as the single main
argument. -/
def fallbackResponse (text : String) : AnalysisResult :=
  ⟨[], [],
   ⟨[⟨text.data.take 500⟩ ++ (if 500 < text.data.length then "..." else "")], []⟩⟩

/-- Model of parseGeminiResponse.  The source applies stripCitations to the
validated value inside each tier's try block; since exactly one tier's value
is ever returned, hoisting that common post-processing out of the tiers
preserves the semantics exactly.  The fallback is returned verbatim, without
citation stripping. -/
def parseGeminiResponse (text : String) : AnalysisResult :=
  match parseTiers text with
  | some r => stripCitationsResult r
  | none => fallbackResponse text

/-! ## Deep-dive handler (extension popup script)

handleDeepDiveAnalysis is modelled by its effect on the cache: rendering and
DOM updates are outside the state.  The outcomes of the two backend calls
are parameters (the settled values of the two promises); Date.now() at the
cache check and at the cache write are explicit. -/

/-- The body returned by the /analyze endpoint. -/
structure AnalysisResponse where
  definitions : List Definition
  arguments : ArgumentLists
  deriving DecidableEq, Repr

/-- The combined deep-dive result cached by the popup. -/
structure DeepDiveResult where
  relatedArticles : List Article
  definitions : List Definition
  arguments : ArgumentLists
  deriving DecidableEq, Repr

/-- Cache effect of one deep-dive invocation: on a valid cache hit the
cached value is displayed and nothing is written; otherwise a failed
analysis call aborts the invocation without a write, and a successful one
writes the combined result whose related articles fall back to the empty
list when the search call failed. -/
def handleDeepDiveAnalysis (storage : CacheStorage DeepDiveResult)
    (cacheKey : String) (nowCheck nowWrite : Nat)
    (analysisOutcome : Except String AnalysisResponse)
    (searchOutcome : Except String (List Article)) : CacheStorage DeepDiveResult :=
  if cacheIsValid storage cacheKey nowCheck then storage
  else
    match analysisOutcome with
    | .error _ => storage
    | .ok analysis =>
        let combinedResult : DeepDiveResult :=
          ⟨(match searchOutcome with
            | .ok articles => articles
            | .error _ => []),
           analysis.definitions, analysis.arguments⟩
        cacheSet storage cacheKey combinedResult 86400000 nowWrite

/-! ## Article text truncation (content script) -/

/-- Model of String.prototype.lastIndexOf for a single character: the index
of its last occurrence, or minus one. -/
def lastIndexOfChar (c : Char) : List Char → Int
  | [] => -1
  | x :: xs =>
      let r := lastIndexOfChar c xs
      if 0 ≤ r then r + 1 else if x = c then 0 else -1

/-- The length-cap step of extractArticleText: text over 60000 characters is
cut at the cap and, when the last period of the capped prefix lies at an
index above 1000, trimmed back to end just after that period. -/
def articleTruncate (combined : List Char) : List Char :=
  if 60000 < combined.length then
    let truncated := combined.take 60000
    let lastPeriod := lastIndexOfChar '.' truncated
    if 1000 < lastPeriod then truncated.take (lastPeriod.toNat + 1) else truncated
  else combined

/-- Modelled from the spec (for comparison with the source): the same cap
step as the specification describes it, with the sentence-boundary watermark
at 80 percent of the cap, that is at character 48000. -/
def articleTruncateSpec (combined : List Char) : List Char :=
  if 60000 < combined.length then
    let truncated := combined.take 60000
    let lastPeriod := lastIndexOfChar '.' truncated
    if 48000 < lastPeriod then truncated.take (lastPeriod.toNat + 1) else truncated
  else combined

/-! ## Search endpoint result selection (backend server) -/

/-- The redirect-shape test applied to a candidate URL: the URL is truthy
and contains the grounding redirect host and path as a substring. -/
def isRedirectUrl (url : String) : Bool :=
  url ≠ "" && strIncludes url "vertexaisearch.cloud.google.com/grounding-api-redirect"

/-- The multi-tier selection of the /search endpoint, taking the articles
extracted from grounding metadata and the articles recovered from the
free-text JSON: redirect-shaped URLs from either source first, then any
grounding-metadata articles, then the JSON articles. -/
def selectSearchArticles (groundedArticles jsonArticles : List Article) :
    List Article :=
  let allArticles := groundedArticles ++ jsonArticles
  let groundedRedirects := allArticles.filter (fun a => isRedirectUrl a.url)
  if groundedRedirects.length > 0 then groundedRedirects
  else if groundedArticles.length > 0 then groundedArticles
  else jsonArticles

/-! ## Basic lemmas about the storage models -/

theorem cacheGet_cacheSet_self {α : Type} (s : CacheStorage α) (k : String) (v : α)
    (ttl now : Nat) : cacheGet (cacheSet s k v ttl now) k = some ⟨v, now, ttl⟩ := by
  simp [cacheGet, cacheSet, List.find?]

theorem rlLookup_rlSet_self (st : List (String × RLRecord)) (id : String) (r : RLRecord) :
    rlLookup (rlSet st id r) id = some r := by
  simp [rlLookup, rlSet, List.find?]

/-! ## C5: cache round-trip -/

/-- C5: after set(key, value, ttl), get(key) returns the entry holding the
original value unchanged, isValid(key) is true while the entry's age stays
strictly below ttl and false once the age exceeds ttl, and isValid(key) is
false for any key the storage does not hold. -/
theorem cache_roundtrip {α : Type} (s : CacheStorage α) (k : String) (v : α)
    (ttl tset tget : Nat) :
    cacheGet (cacheSet s k v ttl tset) k = some ⟨v, tset, ttl⟩ ∧
    ((tget : Int) - (tset : Int) < (ttl : Int) →
      cacheIsValid (cacheSet s k v ttl tset) k tget = true) ∧
    ((ttl : Int) < (tget : Int) - (tset : Int) →
      cacheIsValid (cacheSet s k v ttl tset) k tget = false) ∧
    (∀ s₀ : CacheStorage α, cacheGet s₀ k = none → cacheIsValid s₀ k tget = false) := by
  refine ⟨cacheGet_cacheSet_self s k v ttl tset, ?_, ?_, ?_⟩
  · intro h
    simp [cacheIsValid, cacheGet_cacheSet_self s k v ttl tset, h]
  · intro h
    simp [cacheIsValid, cacheGet_cacheSet_self s k v ttl tset]
    omega
  · intro s₀ h
    simp [cacheIsValid, h]

/-- Witness for C5 at a concrete store, key, value and times. -/
theorem cache_roundtrip_witness :
    cacheGet (cacheSet ([] : CacheStorage Nat) "k" 7 10 100) "k" = some ⟨7, 100, 10⟩ ∧
    cacheIsValid (cacheSet ([] : CacheStorage Nat) "k" 7 10 100) "k" 105 = true ∧
    cacheIsValid (cacheSet ([] : CacheStorage Nat) "k" 7 10 100) "k" 111 = false ∧
    cacheIsValid ([] : CacheStorage Nat) "k" 105 = false :=
  ⟨(cache_roundtrip [] "k" 7 10 100 105).1,
   (cache_roundtrip [] "k" 7 10 100 105).2.1 (by decide),
   (cache_roundtrip [] "k" 7 10 100 111).2.2.1 (by decide),
   (cache_roundtrip [] "k" 7 10 100 105).2.2.2 [] rfl⟩

/-! ## C2: deep-dive cache write discipline -/

/-- C2: the combined deep-dive result is cached only from the settled
outcomes of both calls; a failed analysis call leaves the cache untouched,
and with a successful analysis call a failed search call still caches the
combined result with an empty related-articles list, while a successful
search call caches its articles. -/
theorem deepdive_cache_write (storage : CacheStorage DeepDiveResult) (key : String)
    (tc tw : Nat) (analysisOutcome : Except String AnalysisResponse)
    (searchOutcome : Except String (List Article)) :
    (∀ e, analysisOutcome = .error e →
      handleDeepDiveAnalysis storage key tc tw analysisOutcome searchOutcome = storage) ∧
    (∀ a, analysisOutcome = .ok a → cacheIsValid storage key tc = false →
      (∀ e, searchOutcome = .error e →
        cacheGet (handleDeepDiveAnalysis storage key tc tw analysisOutcome searchOutcome)
          key = some ⟨⟨[], a.definitions, a.arguments⟩, tw, 86400000⟩) ∧
      (∀ articles, searchOutcome = .ok articles →
        cacheGet (handleDeepDiveAnalysis storage key tc tw analysisOutcome searchOutcome)
          key = some ⟨⟨articles, a.definitions, a.arguments⟩, tw, 86400000⟩)) := by
  constructor
  · rintro e rfl
    simp [handleDeepDiveAnalysis]
  · rintro a rfl hmiss
    constructor
    · rintro e rfl
      simp [handleDeepDiveAnalysis, hmiss, cacheGet_cacheSet_self]
    · rintro articles rfl
      simp [handleDeepDiveAnalysis, hmiss, cacheGet_cacheSet_self]

/-- Witness for C2: a failed search call with a successful analysis call
caches the combined result with no related articles. -/
theorem deepdive_cache_write_witness :
    cacheGet (handleDeepDiveAnalysis [] "k" 0 5 (.ok ⟨[], ⟨["m"], []⟩⟩) (.error "down"))
      "k" = some ⟨⟨[], [], ⟨["m"], []⟩⟩, 5, 86400000⟩ :=
  ((deepdive_cache_write [] "k" 0 5 (.ok ⟨[], ⟨["m"], []⟩⟩) (.error "down")).2
    ⟨[], ⟨["m"], []⟩⟩ rfl rfl).1 "down" rfl

/-! ## C9: the suspicious-URL filter -/

/-- C9: every related article surviving validateAndNormalizeResponse has a
URL whose lowercasing contains none of the six denylist substrings, the
containment being tested anywhere in the full URL string. -/
theorem suspicious_filter (data : Json) (r : AnalysisResult)
    (h : validateAndNormalizeResponse data = some r) :
    ∀ a ∈ r.relatedArticles, ∀ pat ∈ suspiciousPatterns,
      strIncludes (jsToLower a.url) pat = false := by
  intro a ha pat hpat
  have hsus : isSuspiciousUrl a.url = false := by
    cases data with
    | obj fields =>
        simp only [validateAndNormalizeResponse, Option.some.injEq] at h
        subst h
        simp only [normalizeRelated] at ha
        rcases hr : objGet fields "relatedArticles" with _ | j
        · rw [hr] at ha; simp at ha
        · rw [hr] at ha
          cases j with
          | arr items =>
              have hmem := List.mem_filter.mp ha
              simpa using hmem.2
          | null => simp at ha
          | bool b => simp at ha
          | num n => simp at ha
          | str s => simp at ha
          | obj f => simp at ha
    | arr items =>
        simp only [validateAndNormalizeResponse, Option.some.injEq] at h
        subst h
        simp at ha
    | null => simp [validateAndNormalizeResponse] at h
    | bool b => simp [validateAndNormalizeResponse] at h
    | num n => simp [validateAndNormalizeResponse] at h
    | str s => simp [validateAndNormalizeResponse] at h
  have := List.any_eq_false.mp (by simpa [isSuspiciousUrl] using hsus)
  simpa using this pat hpat

/-- The concrete payload exercising the suspicious-URL filter: a URL whose
host merely contains test.com as an infix (latest.com) next to a clean one. -/
def suspiciousExampleData : Json :=
  Json.obj [("relatedArticles", Json.arr
    [Json.obj [("title", Json.str "T"), ("url", Json.str "https://latest.com/a")],
     Json.obj [("title", Json.str "U"), ("url", Json.str "https://ok.org/b")]])]

/-- Witness for C9: the latest.com article is dropped and the surviving
article's URL contains no denylist substring. -/
theorem suspicious_filter_witness :
    validateAndNormalizeResponse suspiciousExampleData =
      some ⟨[⟨"U", "https://ok.org/b"⟩], [], ⟨[], []⟩⟩ ∧
    (∀ pat ∈ suspiciousPatterns,
      strIncludes (jsToLower "https://ok.org/b") pat = false) :=
  ⟨by decide,
   suspicious_filter suspiciousExampleData ⟨[⟨"U", "https://ok.org/b"⟩], [], ⟨[], []⟩⟩
     (by decide) ⟨"U", "https://ok.org/b"⟩ (by decide)⟩

/-! ## C6: search result tier selection -/

/-- C6 (amended): redirect-shaped URLs drawn from the grounding metadata and
the free-text JSON together form the top tier and are returned exactly when
present; otherwise grounding-metadata articles are returned when any exist;
free-text JSON articles are returned only when both of those tiers are
empty.  Grounding-sourced URLs therefore take precedence over free-text JSON
URLs only in the redirect-free case. -/
theorem select_articles_tiers (groundedArticles jsonArticles : List Article) :
    (∀ a, a ∈ (groundedArticles ++ jsonArticles).filter (fun a => isRedirectUrl a.url) ↔
      ((a ∈ groundedArticles ∨ a ∈ jsonArticles) ∧ isRedirectUrl a.url = true)) ∧
    ((groundedArticles ++ jsonArticles).filter (fun a => isRedirectUrl a.url) ≠ [] →
      selectSearchArticles groundedArticles jsonArticles =
        (groundedArticles ++ jsonArticles).filter (fun a => isRedirectUrl a.url)) ∧
    ((groundedArticles ++ jsonArticles).filter (fun a => isRedirectUrl a.url) = [] →
      groundedArticles ≠ [] →
      selectSearchArticles groundedArticles jsonArticles = groundedArticles) ∧
    ((groundedArticles ++ jsonArticles).filter (fun a => isRedirectUrl a.url) = [] →
      groundedArticles = [] →
      selectSearchArticles groundedArticles jsonArticles = jsonArticles) := by
  refine ⟨?_, ?_, ?_, ?_⟩
  · intro a
    simp only [List.mem_filter, List.mem_append]
  · intro h
    have hpos : 0 < ((groundedArticles ++ jsonArticles).filter
        (fun a => isRedirectUrl a.url)).length := List.length_pos.mpr h
    simp only [selectSearchArticles, gt_iff_lt]
    rw [if_pos hpos]
  · intro h hg
    have hgpos : 0 < groundedArticles.length := List.length_pos.mpr hg
    simp only [selectSearchArticles, gt_iff_lt, h]
    rw [if_neg (by simp), if_pos hgpos]
  · intro h hg
    subst hg
    simp only [List.nil_append] at h
    simp only [selectSearchArticles, gt_iff_lt, List.nil_append, h]
    simp

/-- Counterexample for C6 as stated: with one plain grounding article and
one redirect-shaped free-text JSON article, the selection returns exactly
the JSON article even though grounding metadata yielded an article, so
grounding-sourced URLs do not always take precedence. -/
theorem select_articles_cex :
    selectSearchArticles [⟨"G", "https://a.com/x"⟩]
      [⟨"J", "https://vertexaisearch.cloud.google.com/grounding-api-redirect/abc"⟩] =
      [⟨"J", "https://vertexaisearch.cloud.google.com/grounding-api-redirect/abc"⟩] ∧
    ([⟨"G", "https://a.com/x"⟩] : List Article) ≠ [] ∧
    (⟨"J", "https://vertexaisearch.cloud.google.com/grounding-api-redirect/abc"⟩ :
      Article) ∉ ([⟨"G", "https://a.com/x"⟩] : List Article) := by
  refine ⟨by decide, by decide, by decide⟩

/-- Witness for C6's amended theorem: the redirect-free tiers at concrete
inputs. -/
theorem select_articles_tiers_witness :
    selectSearchArticles [⟨"G", "https://a.com/x"⟩] [⟨"J", "https://b.com/y"⟩] =
      [⟨"G", "https://a.com/x"⟩] :=
  (select_articles_tiers [⟨"G", "https://a.com/x"⟩] [⟨"J", "https://b.com/y"⟩]).2.2.1
    (by decide) (by decide)

/-! ## C4: the rate-limit window -/

theorem check_eq_create (W N : Nat) (st : List (String × RLRecord)) (id : String)
    (now : Nat) (h : rlLookup st id = none) :
    RateLimiter.check ⟨W, N, st⟩ id now =
      (⟨true, (N : Int) - 1, now + W⟩, ⟨W, N, rlSet st id ⟨1, now + W⟩⟩) := by
  unfold RateLimiter.check
  rw [show (⟨W, N, st⟩ : RateLimiter).store = st from rfl, h]

theorem check_eq_restart (W N : Nat) (st : List (String × RLRecord)) (id : String)
    (now : Nat) (rec : RLRecord) (h : rlLookup st id = some rec)
    (h1 : rec.resetTime ≤ now) :
    RateLimiter.check ⟨W, N, st⟩ id now =
      (⟨true, (N : Int) - 1, now + W⟩, ⟨W, N, rlSet st id ⟨1, now + W⟩⟩) := by
  unfold RateLimiter.check
  rw [show (⟨W, N, st⟩ : RateLimiter).store = st from rfl, h]
  simp [h1]

theorem check_eq_reject (W N : Nat) (st : List (String × RLRecord)) (id : String)
    (now : Nat) (rec : RLRecord) (h : rlLookup st id = some rec)
    (h1 : ¬ rec.resetTime ≤ now) (h2 : N ≤ rec.count) :
    RateLimiter.check ⟨W, N, st⟩ id now = (⟨false, 0, rec.resetTime⟩, ⟨W, N, st⟩) := by
  unfold RateLimiter.check
  rw [show (⟨W, N, st⟩ : RateLimiter).store = st from rfl, h]
  simp [h1, h2]

theorem check_eq_incr (W N : Nat) (st : List (String × RLRecord)) (id : String)
    (now : Nat) (rec : RLRecord) (h : rlLookup st id = some rec)
    (h1 : ¬ rec.resetTime ≤ now) (h2 : ¬ N ≤ rec.count) :
    RateLimiter.check ⟨W, N, st⟩ id now =
      (⟨true, (N : Int) - ((rec.count + 1 : Nat) : Int), rec.resetTime⟩,
       ⟨W, N, rlSet st id ⟨rec.count + 1, rec.resetTime⟩⟩) := by
  unfold RateLimiter.check
  rw [show (⟨W, N, st⟩ : RateLimiter).store = st from rfl, h]
  simp [h1, h2]

theorem runChecks_cons (rl : RateLimiter) (id : String) (t : Nat) (ts : List Nat) :
    runChecks rl id (t :: ts) =
      ((rl.check id t).1.allowed :: (runChecks (rl.check id t).2 id ts).1,
       (runChecks (rl.check id t).2 id ts).2) := by
  simp [runChecks]

theorem runChecks_append (rl : RateLimiter) (id : String) (xs ys : List Nat) :
    runChecks rl id (xs ++ ys) =
      ((runChecks rl id xs).1 ++ (runChecks (runChecks rl id xs).2 id ys).1,
       (runChecks (runChecks rl id xs).2 id ys).2) := by
  induction xs generalizing rl with
  | nil => simp [runChecks]
  | cons t ts ih => simp [runChecks, ih]

/-- From a store holding one record for the identifier with k requests used
and an unexpired window, a run of checks inside the window is fully allowed
and fills the counter up to the cap. -/
theorem runChecks_filled (W N : Nat) (id : String) (R : Nat) (k : Nat) (ts : List Nat)
    (hts : ∀ t ∈ ts, t < R) (hlen : k + ts.length = N) :
    runChecks ⟨W, N, [(id, ⟨k, R⟩)]⟩ id ts =
      (List.replicate ts.length true, ⟨W, N, [(id, ⟨N, R⟩)]⟩) := by
  induction ts generalizing k with
  | nil =>
      simp only [List.length_nil, Nat.add_zero] at hlen
      subst hlen
      simp [runChecks]
  | cons t ts ih =>
      have ht : t < R := hts t (by simp)
      have h1 : ¬ ((⟨k, R⟩ : RLRecord).resetTime ≤ t) := by
        show ¬ (R ≤ t)
        omega
      have h2 : ¬ (N ≤ (⟨k, R⟩ : RLRecord).count) := by
        show ¬ (N ≤ k)
        simp only [List.length_cons] at hlen
        omega
      have hlook : rlLookup [(id, (⟨k, R⟩ : RLRecord))] id = some ⟨k, R⟩ := by
        simp [rlLookup, List.find?]
      have hstep := check_eq_incr W N [(id, ⟨k, R⟩)] id t ⟨k, R⟩ hlook h1 h2
      have hset : rlSet [(id, (⟨k, R⟩ : RLRecord))] id ⟨k + 1, R⟩ =
          [(id, ⟨k + 1, R⟩)] := by
        simp [rlSet, List.filter]
      rw [runChecks_cons, hstep]
      have hrec := ih (k + 1) (fun x hx => hts x (by simp [hx]))
        (by simp only [List.length_cons] at hlen; omega)
      rw [show rlSet [(id, (⟨k, R⟩ : RLRecord))] id
            ⟨(⟨k, R⟩ : RLRecord).count + 1, (⟨k, R⟩ : RLRecord).resetTime⟩ =
          [(id, ⟨k + 1, R⟩)] from hset]
      rw [hrec]
      simp [List.replicate_succ]

/-- C4 (both halves): starting from a store without the identifier, a run of
N plus one checks whose times all precede the window opened by the first
call yields N allowed results followed by one rejection; and from any state
whose record for the identifier has expired, the next check is allowed with
the counter reset to one. -/
theorem rate_limit_window (W N : Nat) (hN : 1 ≤ N) (id : String) (t0 : Nat)
    (ts : List Nat) (hlen : ts.length = N - 1) (hts : ∀ t ∈ ts, t < t0 + W)
    (tlast : Nat) (hlast : tlast < t0 + W) :
    (runChecks ⟨W, N, []⟩ id (t0 :: ts ++ [tlast])).1 =
      List.replicate N true ++ [false] ∧
    (∀ rl : RateLimiter, ∀ now rec, rlLookup rl.store id = some rec →
      rec.resetTime ≤ now →
      (rl.check id now).1.allowed = true ∧
      rlLookup (rl.check id now).2.store id = some ⟨1, now + rl.windowMs⟩) := by
  constructor
  · have hfirst := check_eq_create W N [] id t0 (by simp [rlLookup])
    have hset0 : rlSet ([] : List (String × RLRecord)) id ⟨1, t0 + W⟩ =
        [(id, ⟨1, t0 + W⟩)] := by simp [rlSet]
    have hfill := runChecks_filled W N id (t0 + W) 1 ts hts (by omega)
    have hlook : rlLookup [(id, (⟨N, t0 + W⟩ : RLRecord))] id = some ⟨N, t0 + W⟩ := by
      simp [rlLookup, List.find?]
    have hreject := check_eq_reject W N [(id, ⟨N, t0 + W⟩)] id tlast ⟨N, t0 + W⟩
      hlook (by show ¬ (t0 + W ≤ tlast); omega) (le_refl N)
    rw [List.cons_append, runChecks_cons, hfirst, hset0]
    rw [show ((⟨true, (N : Int) - 1, t0 + W⟩, (⟨W, N, [(id, ⟨1, t0 + W⟩)]⟩ :
        RateLimiter)) : CheckResult × RateLimiter).2 =
      (⟨W, N, [(id, ⟨1, t0 + W⟩)]⟩ : RateLimiter) from rfl]
    rw [runChecks_append, hfill]
    rw [show (List.replicate ts.length true,
        (⟨W, N, [(id, ⟨N, t0 + W⟩)]⟩ : RateLimiter)).2 =
      (⟨W, N, [(id, ⟨N, t0 + W⟩)]⟩ : RateLimiter) from rfl]
    rw [runChecks_cons, hreject]
    simp only [runChecks]
    rw [hlen]
    rw [show N = (N - 1) + 1 from (by omega), List.replicate_succ, List.cons_append]
    simp
  · intro rl now rec hlook hexp
    obtain ⟨Wf, Nf, stf⟩ := rl
    have hstep := check_eq_restart Wf Nf stf id now rec hlook hexp
    rw [hstep]
    exact ⟨rfl, rlLookup_rlSet_self _ _ _⟩

/-- Witness for C4 at a concrete limiter, identifier and time sequence. -/
theorem rate_limit_window_witness :
    (runChecks ⟨10, 2, []⟩ "a" (0 :: [1] ++ [2])).1 =
      List.replicate 2 true ++ [false] :=
  (rate_limit_window 10 2 (by decide) "a" 0 [1] (by decide)
    (by intro t ht; simp at ht; omega) 2 (by decide)).1

/-! ## C10: the rate-limiter state invariant -/

/-- Every record of the store has a count between one and the cap. -/
def storeBounded (N : Nat) (st : List (String × RLRecord)) : Prop :=
  ∀ p ∈ st, 1 ≤ p.2.count ∧ p.2.count ≤ N

theorem storeBounded_rlSet {N : Nat} {st : List (String × RLRecord)}
    (h : storeBounded N st) {id : String} {r : RLRecord}
    (hr : 1 ≤ r.count ∧ r.count ≤ N) : storeBounded N (rlSet st id r) := by
  intro p hp
  rcases List.mem_cons.mp hp with hp | hp
  · exact hp ▸ hr
  · exact h p (List.mem_of_mem_filter hp)

theorem check_preserves_bounded (rl : RateLimiter) (id : String) (now : Nat)
    (hN : 1 ≤ rl.maxRequests) (h : storeBounded rl.maxRequests rl.store) :
    storeBounded rl.maxRequests (rl.check id now).2.store := by
  obtain ⟨W, N, st⟩ := rl
  rcases hfind : rlLookup st id with _ | rec
  · rw [check_eq_create W N st id now hfind]
    exact storeBounded_rlSet h ⟨le_refl 1, hN⟩
  · by_cases h1 : rec.resetTime ≤ now
    · rw [check_eq_restart W N st id now rec hfind h1]
      exact storeBounded_rlSet h ⟨le_refl 1, hN⟩
    · by_cases h2 : N ≤ rec.count
      · rw [check_eq_reject W N st id now rec hfind h1 h2]
        exact h
      · rw [check_eq_incr W N st id now rec hfind h1 h2]
        refine storeBounded_rlSet h ⟨?_, ?_⟩
        · show 1 ≤ rec.count + 1
          omega
        · show rec.count + 1 ≤ N
          omega

theorem check_preserves_config (rl : RateLimiter) (id : String) (now : Nat) :
    (rl.check id now).2.maxRequests = rl.maxRequests := by
  obtain ⟨W, N, st⟩ := rl
  rcases hfind : rlLookup st id with _ | rec
  · rw [check_eq_create W N st id now hfind]
  · by_cases h1 : rec.resetTime ≤ now
    · rw [check_eq_restart W N st id now rec hfind h1]
    · by_cases h2 : N ≤ rec.count
      · rw [check_eq_reject W N st id now rec hfind h1 h2]
      · rw [check_eq_incr W N st id now rec hfind h1 h2]

theorem runRL_preserves (ops : List RLOp) (rl : RateLimiter)
    (hN : 1 ≤ rl.maxRequests) (h : storeBounded rl.maxRequests rl.store) :
    (runRL rl ops).maxRequests = rl.maxRequests ∧
    storeBounded rl.maxRequests (runRL rl ops).store := by
  induction ops generalizing rl with
  | nil => exact ⟨rfl, h⟩
  | cons op ops ih =>
      cases op with
      | check id now =>
          have hmax := check_preserves_config rl id now
          have hb := check_preserves_bounded rl id now hN h
          have := ih (rl.check id now).2 (hmax ▸ hN) (hmax ▸ hb)
          simpa [runRL, hmax] using this
      | cleanup now =>
          refine ih (rl.cleanup now) hN ?_
          intro p hp
          exact h p (List.mem_of_mem_filter hp)
      | resetAll =>
          refine ih rl.resetAll hN ?_
          intro p hp
          simp [RateLimiter.resetAll] at hp

theorem check_remaining (rl : RateLimiter) (id : String) (now : Nat)
    (hN : 1 ≤ rl.maxRequests)
    (hallow : (rl.check id now).1.allowed = true) :
    ∃ rec, rlLookup (rl.check id now).2.store id = some rec ∧
      (rl.check id now).1.remaining = (rl.maxRequests : Int) - (rec.count : Int) ∧
      0 ≤ (rl.check id now).1.remaining := by
  obtain ⟨W, N, st⟩ := rl
  have hN' : 1 ≤ N := hN
  rcases hfind : rlLookup st id with _ | rec
  · rw [check_eq_create W N st id now hfind]
    refine ⟨⟨1, now + W⟩, rlLookup_rlSet_self _ _ _, ?_, ?_⟩
    · show (N : Int) - 1 = (N : Int) - ((1 : Nat) : Int)
      simp
    · show (0 : Int) ≤ (N : Int) - 1
      omega
  · by_cases h1 : rec.resetTime ≤ now
    · rw [check_eq_restart W N st id now rec hfind h1]
      refine ⟨⟨1, now + W⟩, rlLookup_rlSet_self _ _ _, ?_, ?_⟩
      · show (N : Int) - 1 = (N : Int) - ((1 : Nat) : Int)
        simp
      · show (0 : Int) ≤ (N : Int) - 1
        omega
    · by_cases h2 : N ≤ rec.count
      · rw [check_eq_reject W N st id now rec hfind h1 h2] at hallow
        simp at hallow
      · rw [check_eq_incr W N st id now rec hfind h1 h2]
        refine ⟨⟨rec.count + 1, rec.resetTime⟩, rlLookup_rlSet_self _ _ _, ?_, ?_⟩
        · show (N : Int) - ((rec.count + 1 : Nat) : Int) =
            (N : Int) - (((⟨rec.count + 1, rec.resetTime⟩ : RLRecord).count : Nat) : Int)
          rfl
        · show (0 : Int) ≤ (N : Int) - ((rec.count + 1 : Nat) : Int)
          push_cast
          omega

/-- C10: from a limiter configured with a positive cap, any sequence of
check, cleanup and reset operations keeps every stored count between one
and the cap, and every allowed check reports remaining equal to the cap
minus the identifier's stored count, which is never negative. -/
theorem rate_limit_invariant (W N : Nat) (hN : 1 ≤ N) (ops : List RLOp) :
    storeBounded N (runRL ⟨W, N, []⟩ ops).store ∧
    (∀ id now, ((runRL ⟨W, N, []⟩ ops).check id now).1.allowed = true →
      ∃ rec, rlLookup ((runRL ⟨W, N, []⟩ ops).check id now).2.store id = some rec ∧
        ((runRL ⟨W, N, []⟩ ops).check id now).1.remaining =
          (N : Int) - (rec.count : Int) ∧
        0 ≤ ((runRL ⟨W, N, []⟩ ops).check id now).1.remaining) := by
  have hrun := runRL_preserves ops ⟨W, N, []⟩ (by simpa using hN)
    (by intro p hp; simp at hp)
  refine ⟨by simpa using hrun.2, ?_⟩
  intro id now hallow
  have := check_remaining (runRL ⟨W, N, []⟩ ops) id now
    (by rw [hrun.1]; simpa using hN) hallow
  rw [hrun.1] at this
  simpa using this

/-- Witness for C10 at a concrete limiter and operation sequence. -/
theorem rate_limit_invariant_witness :
    storeBounded 2 (runRL ⟨5, 2, []⟩ [RLOp.check "a" 0]).store ∧
    (∀ id now, ((runRL ⟨5, 2, []⟩ [RLOp.check "a" 0]).check id now).1.allowed = true →
      ∃ rec, rlLookup ((runRL ⟨5, 2, []⟩ [RLOp.check "a" 0]).check id now).2.store id =
          some rec ∧
        ((runRL ⟨5, 2, []⟩ [RLOp.check "a" 0]).check id now).1.remaining =
          (2 : Int) - (rec.count : Int) ∧
        0 ≤ ((runRL ⟨5, 2, []⟩ [RLOp.check "a" 0]).check id now).1.remaining) :=
  rate_limit_invariant 5 2 (by decide) [RLOp.check "a" 0]

/-! ## C8: article text truncation -/

theorem lastIndexOfChar_neg (c : Char) (l : List Char) (h : c ∉ l) :
    lastIndexOfChar c l = -1 := by
  induction l with
  | nil => rfl
  | cons x xs ih =>
      have hx : ¬ x = c := fun hx => h (hx ▸ List.mem_cons_self x xs)
      have hxs := ih (fun hm => h (List.mem_cons_of_mem x hm))
      simp [lastIndexOfChar, hxs, hx]

theorem lastIndexOfChar_nonneg_of_mem (c : Char) (l : List Char) (h : c ∈ l) :
    0 ≤ lastIndexOfChar c l := by
  induction l with
  | nil => simp at h
  | cons x xs ih =>
      simp only [lastIndexOfChar]
      by_cases hr : 0 ≤ lastIndexOfChar c xs
      · rw [if_pos hr]
        omega
      · rw [if_neg hr]
        rcases List.mem_cons.mp h with hx | hm
        · simp [hx.symm]
        · exact absurd (ih hm) hr

theorem lastIndexOfChar_append_last (c : Char) (l r : List Char) (hl : c ∉ l)
    (hr : c ∉ r) : lastIndexOfChar c (l ++ c :: r) = (l.length : Int) := by
  induction l with
  | nil =>
      simp [lastIndexOfChar, lastIndexOfChar_neg c r hr]
  | cons x xs ih =>
      have hxs := ih (fun hm => hl (List.mem_cons_of_mem x hm))
      have hpos : (0 : Int) ≤ lastIndexOfChar c (xs ++ c :: r) := by
        rw [hxs]; positivity
      simp only [List.cons_append, lastIndexOfChar, hxs]
      rw [if_pos (by positivity)]
      simp
      omega

theorem lastIndexOfChar_spec (c : Char) (l : List Char) (i : Nat)
    (h : lastIndexOfChar c l = (i : Int)) :
    l[i]? = some c ∧ ∀ j, i < j → l[j]? ≠ some c := by
  induction l generalizing i with
  | nil =>
      simp only [lastIndexOfChar] at h
      omega
  | cons x xs ih =>
      simp only [lastIndexOfChar] at h
      by_cases hr : 0 ≤ lastIndexOfChar c xs
      · rw [if_pos hr] at h
        obtain ⟨j, hj⟩ : ∃ j : Nat, lastIndexOfChar c xs = (j : Int) :=
          ⟨(lastIndexOfChar c xs).toNat, (Int.toNat_of_nonneg hr).symm⟩
        have hij : i = j + 1 := by omega
        subst hij
        obtain ⟨h1, h2⟩ := ih j hj
        refine ⟨by simpa using h1, ?_⟩
        intro k hk
        match k, hk with
        | k + 1, hk =>
            simpa using h2 k (by omega)
      · rw [if_neg hr] at h
        have hnm : c ∉ xs := fun hm => hr (lastIndexOfChar_nonneg_of_mem c xs hm)
        by_cases hx : x = c
        · rw [if_pos hx] at h
          have hi : i = 0 := by omega
          subst hi
          refine ⟨by simp [hx], ?_⟩
          intro k hk
          match k, hk with
          | k + 1, _ =>
              simp only [List.getElem?_cons_succ]
              intro hc
              exact hnm (List.getElem?_mem hc)
        · rw [if_neg hx] at h
          omega

theorem getLast?_take_of_getElem {l : List Char} {i : Nat} {c : Char}
    (hi : l[i]? = some c) : (l.take (i + 1)).getLast? = some c := by
  obtain ⟨hlt, hget⟩ := List.getElem?_eq_some.mp hi
  rw [List.getLast?_eq_getElem?]
  have hlen : (l.take (i + 1)).length = i + 1 := by
    simp
    omega
  rw [hlen]
  simp only [Nat.add_sub_cancel, List.getElem?_take]
  rw [if_pos (Nat.lt_succ_self i)]
  exact hi

/-- C8 (amended): text at or under the 60000-character cap is returned
unshortened; longer text is cut at the cap and, when the last period of the
capped prefix sits at an index strictly above 1000 (not above 48000 as the
specification says), the output stops right after that period -- hence ends
with a period that no later period of the capped prefix follows; when the
capped prefix has no period above index 1000 the raw capped prefix is
returned. -/
theorem article_truncate_amended (l : List Char) :
    (l.length ≤ 60000 → articleTruncate l = l) ∧
    (60000 < l.length →
      (lastIndexOfChar '.' (l.take 60000) ≤ 1000 →
        articleTruncate l = l.take 60000) ∧
      (∀ i : Nat, lastIndexOfChar '.' (l.take 60000) = (i : Int) → 1000 < i →
        articleTruncate l = (l.take 60000).take (i + 1) ∧
        (l.take 60000)[i]? = some '.' ∧
        (∀ j, i < j → (l.take 60000)[j]? ≠ some '.') ∧
        (articleTruncate l).getLast? = some '.')) := by
  constructor
  · intro h
    simp only [articleTruncate]
    rw [if_neg (Nat.not_lt.mpr h)]
  · intro h
    constructor
    · intro hle
      simp only [articleTruncate]
      rw [if_pos h, if_neg (by omega)]
    · intro i hli hgt
      obtain ⟨h1, h2⟩ := lastIndexOfChar_spec '.' (l.take 60000) i hli
      have heq : articleTruncate l = (l.take 60000).take (i + 1) := by
        simp only [articleTruncate]
        rw [if_pos h, hli, if_pos (by exact_mod_cast hgt)]
        simp
      exact ⟨heq, h1, h2, heq ▸ getLast?_take_of_getElem h1⟩

/-- The concrete over-cap extraction input: its only period sits at index
1001, above the code watermark of 1000 but far below the specified watermark
of 48000. -/
def truncCexInput : List Char :=
  List.replicate 1001 'a' ++ '.' :: List.replicate 58999 'b'

theorem not_mem_replicate_of_ne {c a : Char} (h : c ≠ a) (n : Nat) :
    c ∉ List.replicate n a :=
  fun hm => h ((List.mem_replicate.mp hm).2)

theorem truncCexInput_length : truncCexInput.length = 60001 := by
  show (List.replicate 1001 'a' ++ '.' :: List.replicate 58999 'b').length = 60001
  rw [List.length_append, List.length_cons, List.length_replicate,
    List.length_replicate]

theorem truncCexInput_take :
    truncCexInput.take 60000 = List.replicate 1001 'a' ++ '.' :: List.replicate 58998 'b' := by
  show (List.replicate 1001 'a' ++ '.' :: List.replicate 58999 'b').take 60000 =
    List.replicate 1001 'a' ++ '.' :: List.replicate 58998 'b'
  rw [List.take_append_eq_append_take]
  rw [List.take_of_length_le (by rw [List.length_replicate]; omega)]
  simp only [List.length_replicate]
  rw [show (60000 - 1001 : Nat) = 58998 + 1 from rfl, List.take_succ_cons,
    List.take_replicate]
  rw [Nat.min_eq_left (by omega)]

theorem truncCexInput_lastPeriod :
    lastIndexOfChar '.' (truncCexInput.take 60000) = (1001 : Int) := by
  rw [truncCexInput_take]
  have := lastIndexOfChar_append_last '.' (List.replicate 1001 'a')
    (List.replicate 58998 'b') (not_mem_replicate_of_ne (by decide) 1001)
    (not_mem_replicate_of_ne (by decide) 58998)
  rw [List.length_replicate] at this
  exact_mod_cast this

/-- Counterexample for C8 as stated: on the concrete input the code trims
back to the period at index 1001 (output length 1002), while the claimed
80-percent watermark behaviour would return the whole 60000-character
prefix. -/
theorem article_truncate_cex :
    (articleTruncate truncCexInput).length = 1002 ∧
    (articleTruncateSpec truncCexInput).length = 60000 ∧
    articleTruncate truncCexInput ≠ articleTruncateSpec truncCexInput := by
  have hlong : 60000 < truncCexInput.length := by rw [truncCexInput_length]; omega
  have hcode : articleTruncate truncCexInput = (truncCexInput.take 60000).take 1002 := by
    simp only [articleTruncate]
    rw [if_pos hlong, truncCexInput_lastPeriod]
    rw [if_pos (by norm_num)]
    rw [show (Int.toNat 1001 + 1) = 1002 from rfl]
  have hspec : articleTruncateSpec truncCexInput = truncCexInput.take 60000 := by
    simp only [articleTruncateSpec]
    rw [if_pos hlong, truncCexInput_lastPeriod]
    rw [if_neg (by norm_num)]
  have htakelen : (truncCexInput.take 60000).length = 60000 := by
    rw [truncCexInput_take]
    rw [List.length_append, List.length_cons, List.length_replicate,
      List.length_replicate]
  have h1 : (articleTruncate truncCexInput).length = 1002 := by
    rw [hcode, List.length_take, htakelen]
    omega
  have h2 : (articleTruncateSpec truncCexInput).length = 60000 := by
    rw [hspec, htakelen]
  refine ⟨h1, h2, fun heq => ?_⟩
  rw [heq, h2] at h1
  omega

/-- Witness for C8's amended theorem at the concrete over-cap input. -/
theorem article_truncate_amended_witness :
    articleTruncate truncCexInput = (truncCexInput.take 60000).take 1002 ∧
    (articleTruncate truncCexInput).getLast? = some '.' :=
  have h := (article_truncate_amended truncCexInput).2
    (by rw [truncCexInput_length]; omega)
  have h2 := h.2 1001 truncCexInput_lastPeriod (by omega)
  ⟨h2.1, h2.2.2.2⟩

/-! ## C3: cache key determinism (the provable half)

The byte-change-sensitivity half of the cache-key claim is exactly
collision-freeness of the truncated SHA-256 digest under single-byte edits
and cannot be settled here; the deterministic-prefix half holds for every
hash function. -/

/-- Keys agree whenever the URL and the first 1000 characters of the text
agree, for any content hash: trailing differences never change the key. -/
theorem generateCacheKey_deterministic_on_head (hash : String → String)
    (url t1 t2 : String) (h : t1.data.take 1000 = t2.data.take 1000) :
    generateCacheKey hash url t1 = generateCacheKey hash url t2 := by
  simp [generateCacheKey, h]

/-! ## Lemmas on trimming -/

theorem head?_dropWhile_ws (p : Char → Bool) (l : List Char) :
    ∀ c, (l.dropWhile p).head? = some c → p c = false := by
  induction l with
  | nil => intro c h; simp at h
  | cons x xs ih =>
      intro c h
      rw [List.dropWhile_cons] at h
      by_cases hx : p x = true
      · rw [if_pos hx] at h
        exact ih c h
      · rw [if_neg hx] at h
        have hxc : x = c := by simpa using h
        subst hxc
        exact Bool.eq_false_iff.mpr hx

theorem getLast?_of_suffix {t s : List Char} (h : t <:+ s) (hne : t ≠ []) :
    t.getLast? = s.getLast? := by
  obtain ⟨u, rfl⟩ := h
  exact (List.getLast?_append_of_ne_nil u hne).symm

theorem jsTrimL_head (l : List Char) :
    ∀ c, (jsTrimL l).head? = some c → isJsWs c = false := by
  intro c h
  unfold jsTrimL at h
  rw [List.head?_reverse] at h
  have hYne : (l.dropWhile isJsWs).reverse.dropWhile isJsWs ≠ [] := by
    intro hy
    rw [hy] at h
    simp at h
  have h1 := getLast?_of_suffix (List.dropWhile_suffix (l := (l.dropWhile isJsWs).reverse)
    isJsWs) hYne
  rw [h1, List.getLast?_reverse] at h
  exact head?_dropWhile_ws isJsWs l c h

theorem jsTrimL_getLast (l : List Char) :
    ∀ c, (jsTrimL l).getLast? = some c → isJsWs c = false := by
  intro c h
  unfold jsTrimL at h
  rw [List.getLast?_reverse] at h
  exact head?_dropWhile_ws isJsWs _ c h

theorem dropWhile_eq_self_of_head (p : Char → Bool) (l : List Char)
    (h : ∀ c, l.head? = some c → p c = false) : l.dropWhile p = l := by
  cases l with
  | nil => rfl
  | cons c rest =>
      rw [List.dropWhile_cons, if_neg (by simp [h c rfl])]

theorem jsTrimL_idem (l : List Char) : jsTrimL (jsTrimL l) = jsTrimL l := by
  have h1 : (jsTrimL l).dropWhile isJsWs = jsTrimL l :=
    dropWhile_eq_self_of_head _ _ (jsTrimL_head l)
  show ((((jsTrimL l).dropWhile isJsWs).reverse).dropWhile isJsWs).reverse = jsTrimL l
  rw [h1]
  have h2 : (jsTrimL l).reverse.dropWhile isJsWs = (jsTrimL l).reverse := by
    refine dropWhile_eq_self_of_head _ _ ?_
    intro c hc
    rw [List.head?_reverse] at hc
    exact jsTrimL_getLast l c hc
  rw [h2, List.reverse_reverse]

theorem infix_of_jsTrimL (l : List Char) : jsTrimL l <:+: l := by
  have h1 : l.dropWhile isJsWs <:+ l := List.dropWhile_suffix _
  have h2 : (l.dropWhile isJsWs).reverse.dropWhile isJsWs <:+
      (l.dropWhile isJsWs).reverse := List.dropWhile_suffix _
  have h3 : jsTrimL l <+: (l.dropWhile isJsWs).reverse.reverse :=
    List.reverse_prefix.mpr h2
  rw [List.reverse_reverse] at h3
  exact h3.isInfix.trans h1.isInfix

/-! ## Lemmas on whitespace collapsing -/

/-- The normal form guaranteed for every string of a citation-stripped
result: whitespace only as single interior spaces, nothing at the ends. -/
def wsNormalized (l : List Char) : Prop :=
  (∀ c ∈ l, isJsWs c = true → c = ' ') ∧ ¬ ([' ', ' '] <:+: l) ∧
  (∀ c, l.head? = some c → isJsWs c = false) ∧
  (∀ c, l.getLast? = some c → isJsWs c = false)

theorem collapseWsF_spec (fuel : Nat) : ∀ l : List Char, l.length ≤ fuel →
    (∀ c ∈ collapseWsF fuel l, isJsWs c = true → c = ' ') ∧
    ¬ ([' ', ' '] <:+: collapseWsF fuel l) ∧
    (∀ c, (collapseWsF fuel l).head? = some c → isJsWs c = true →
      ∃ d, l.head? = some d ∧ isJsWs d = true) := by
  induction fuel with
  | zero =>
      intro l hl
      have : l = [] := List.eq_nil_of_length_eq_zero (Nat.le_zero.mp hl)
      subst this
      refine ⟨by simp [collapseWsF], by simp [collapseWsF], by simp [collapseWsF]⟩
  | succ fuel ih =>
      intro l hl
      match l with
      | [] => exact ⟨by simp [collapseWsF], by simp [collapseWsF], by simp [collapseWsF]⟩
      | c :: rest =>
          by_cases hc : isJsWs c = true
          · have hout : collapseWsF (fuel + 1) (c :: rest) =
                ' ' :: collapseWsF fuel (rest.dropWhile isJsWs) := by
              simp [collapseWsF, hc]
            have hlen : (rest.dropWhile isJsWs).length ≤ fuel := by
              have := (List.dropWhile_suffix (l := rest) isJsWs).length_le
              simp only [List.length_cons] at hl
              omega
            obtain ⟨ih1, ih2, ih3⟩ := ih (rest.dropWhile isJsWs) hlen
            refine ⟨?_, ?_, ?_⟩
            · intro x hx hwx
              rw [hout] at hx
              rcases List.mem_cons.mp hx with hx | hx
              · exact hx
              · exact ih1 x hx hwx
            · rw [hout]
              intro hinf
              rcases List.infix_cons_iff.mp hinf with hpre | hinf2
              · rcases (List.cons_prefix_cons.mp hpre) with ⟨_, hpre2⟩
                obtain ⟨u, hu⟩ := hpre2
                have hhead : (collapseWsF fuel (rest.dropWhile isJsWs)).head? =
                    some ' ' := by rw [← hu]; rfl
                obtain ⟨d, hd1, hd2⟩ := ih3 ' ' hhead (by decide)
                have := head?_dropWhile_ws isJsWs rest d hd1
                rw [this] at hd2
                exact absurd hd2 (by decide)
              · exact ih2 hinf2
            · intro x hx hwx
              rw [hout] at hx
              exact ⟨c, rfl, hc⟩
          · have hout : collapseWsF (fuel + 1) (c :: rest) =
                c :: collapseWsF fuel rest := by
              simp [collapseWsF, hc]
            have hlen : rest.length ≤ fuel := by
              simp only [List.length_cons] at hl
              omega
            obtain ⟨ih1, ih2, ih3⟩ := ih rest hlen
            refine ⟨?_, ?_, ?_⟩
            · intro x hx hwx
              rw [hout] at hx
              rcases List.mem_cons.mp hx with hx | hx
              · subst hx
                exact absurd hwx hc
              · exact ih1 x hx hwx
            · rw [hout]
              intro hinf
              rcases List.infix_cons_iff.mp hinf with hpre | hinf2
              · rcases (List.cons_prefix_cons.mp hpre) with ⟨hsp, _⟩
                rw [← hsp] at hc
                exact hc (by decide)
              · exact ih2 hinf2
            · intro x hx hwx
              rw [hout] at hx
              have hxc : c = x := by simpa using hx
              rw [← hxc] at hwx
              exact absurd hwx hc

theorem collapseWsL_spec (l : List Char) :
    (∀ c ∈ collapseWsL l, isJsWs c = true → c = ' ') ∧
    ¬ ([' ', ' '] <:+: collapseWsL l) :=
  ⟨(collapseWsF_spec l.length l (le_refl _)).1,
   (collapseWsF_spec l.length l (le_refl _)).2.1⟩

theorem jsTrimL_wsNormalized (l : List Char)
    (h1 : ∀ c ∈ l, isJsWs c = true → c = ' ') (h2 : ¬ ([' ', ' '] <:+: l)) :
    wsNormalized (jsTrimL l) := by
  refine ⟨?_, ?_, jsTrimL_head l, jsTrimL_getLast l⟩
  · intro c hc
    exact h1 c ((infix_of_jsTrimL l).subset hc)
  · intro hinf
    exact h2 (hinf.trans (infix_of_jsTrimL l))

theorem stripCitationsStr_wsNormalized (s : String) :
    wsNormalized (stripCitationsStr s).data := by
  show wsNormalized (jsTrimL (collapseWsL (stripCitL s.data)))
  obtain ⟨h1, h2⟩ := collapseWsL_spec (stripCitL s.data)
  exact jsTrimL_wsNormalized _ h1 h2

/-! ## Lemmas on citation markers -/

/-- A bracketed digit run occurring somewhere in the character list. -/
def hasMarker (l : List Char) : Prop :=
  ∃ ds : List Char, ds ≠ [] ∧ (∀ c ∈ ds, c.isDigit = true) ∧
    ('[' :: (ds ++ [']'])) <:+: l

theorem digit_not_ws (c : Char) (h : c.isDigit = true) : isJsWs c = false := by
  by_contra hw
  have hw' : isJsWs c = true := by simpa using hw
  simp only [isJsWs, Bool.or_eq_true, decide_eq_true_eq] at hw'
  rcases hw' with ((((((h1 | h1) | h1) | h1) | h1) | h1) | h1) | h1 <;>
    (subst h1; exact absurd h (by decide))

theorem takeWhile_app_of_all (p : Char → Bool) (ds r : List Char)
    (h : ∀ c ∈ ds, p c = true) : (ds ++ r).takeWhile p = ds ++ r.takeWhile p := by
  induction ds with
  | nil => simp
  | cons d ds ih =>
      rw [List.cons_append, List.takeWhile_cons, if_pos (h d (by simp))]
      rw [ih (fun c hc => h c (by simp [hc]))]
      rfl

theorem dropWhile_app_of_all (p : Char → Bool) (ds r : List Char)
    (h : ∀ c ∈ ds, p c = true) : (ds ++ r).dropWhile p = r.dropWhile p := by
  induction ds with
  | nil => simp
  | cons d ds ih =>
      rw [List.cons_append, List.dropWhile_cons, if_pos (h d (by simp))]
      exact ih (fun c hc => h c (by simp [hc]))

theorem matchCitAt_of_marker (ds : List Char) (hne : ds ≠ [])
    (hds : ∀ c ∈ ds, c.isDigit = true) (r : List Char) :
    ∃ t, matchCitAt ('[' :: (ds ++ ']' :: r)) = some t := by
  have h1 : ('[' :: (ds ++ ']' :: r)).dropWhile isJsWs = '[' :: (ds ++ ']' :: r) := by
    rw [List.dropWhile_cons, if_neg (by decide)]
  have h2 : (ds ++ ']' :: r).takeWhile Char.isDigit = ds := by
    rw [takeWhile_app_of_all Char.isDigit ds _ hds, List.takeWhile_cons,
      if_neg (by decide)]
    simp
  have h3 : (ds ++ ']' :: r).dropWhile Char.isDigit = ']' :: r := by
    rw [dropWhile_app_of_all Char.isDigit ds _ hds, List.dropWhile_cons,
      if_neg (by decide)]
  have h4 : ds.isEmpty = false := by
    cases ds with
    | nil => exact absurd rfl hne
    | cons d ds => rfl
  refine ⟨r.dropWhile isJsWs, ?_⟩
  simp only [matchCitAt, h1, List.head?_cons, List.tail_cons]
  rw [if_pos trivial, h2, h3]
  rw [if_neg (by simp [h4]), List.head?_cons, if_pos rfl, List.tail_cons]

theorem tail_length_lt_of_head? {l : List Char} {a : Char}
    (h : l.head? = some a) : l.tail.length < l.length := by
  cases l with
  | nil => simp at h
  | cons x xs => simp

theorem matchCitAt_length (s r : List Char) (h : matchCitAt s = some r) :
    r.length < s.length := by
  simp only [matchCitAt] at h
  by_cases h0 : (s.dropWhile isJsWs).head? = some '['
  · rw [if_pos h0] at h
    by_cases he : ((s.dropWhile isJsWs).tail.takeWhile Char.isDigit).isEmpty = true
    · rw [if_pos he] at h
      exact absurd h (by simp)
    · rw [if_neg he] at h
      by_cases hy : ((s.dropWhile isJsWs).tail.dropWhile Char.isDigit).head? = some ']'
      · rw [if_pos hy] at h
        have hr : r = ((s.dropWhile isJsWs).tail.dropWhile Char.isDigit).tail.dropWhile
            isJsWs := by
          have := h
          simp at this
          exact this.symm
        have l1 : r.length ≤
            ((s.dropWhile isJsWs).tail.dropWhile Char.isDigit).tail.length := by
          rw [hr]
          exact (List.dropWhile_suffix isJsWs).length_le
        have l2 := tail_length_lt_of_head? hy
        have l3 : ((s.dropWhile isJsWs).tail.dropWhile Char.isDigit).length ≤
            (s.dropWhile isJsWs).tail.length :=
          (List.dropWhile_suffix Char.isDigit).length_le
        have l4 := tail_length_lt_of_head? h0
        have l5 : (s.dropWhile isJsWs).length ≤ s.length :=
          (List.dropWhile_suffix isJsWs).length_le
        omega
      · rw [if_neg hy] at h
        exact absurd h (by simp)
  · rw [if_neg h0] at h
    exact absurd h (by simp)

theorem keepPrefix_stripCitF (fuel : Nat) : ∀ (l s : List Char),
    (∀ c ∈ s, c ≠ ' ') → s <+: stripCitF fuel l → s <+: l := by
  induction fuel with
  | zero =>
      intro l s hs hp
      simpa [stripCitF] using hp
  | succ fuel ih =>
      intro l s hs hp
      match l with
      | [] => simpa [stripCitF] using hp
      | c :: rest =>
          rcases hm : matchCitAt (c :: rest) with _ | rest2
          · rw [show stripCitF (fuel + 1) (c :: rest) = c :: stripCitF fuel rest from
              by simp [stripCitF, hm]] at hp
            rcases List.prefix_cons_iff.mp hp with h0 | ⟨tl, hseq, htp⟩
            · subst h0
              exact List.nil_prefix
            · subst hseq
              exact List.cons_prefix_cons.mpr
                ⟨rfl, ih rest tl (fun x hx => hs x (by simp [hx])) htp⟩
          · rw [show stripCitF (fuel + 1) (c :: rest) = ' ' :: stripCitF fuel rest2 from
              by simp [stripCitF, hm]] at hp
            rcases List.prefix_cons_iff.mp hp with h0 | ⟨tl, hseq, _⟩
            · subst h0
              exact List.nil_prefix
            · exact absurd rfl (hs ' ' (by rw [hseq]; simp))

theorem stripCitF_noMarker (fuel : Nat) : ∀ l : List Char, l.length ≤ fuel →
    ¬ hasMarker (stripCitF fuel l) := by
  induction fuel with
  | zero =>
      intro l hl
      have hnil : l = [] := List.eq_nil_of_length_eq_zero (Nat.le_zero.mp hl)
      subst hnil
      rintro ⟨ds, hne, hds, hinf⟩
      simp [stripCitF] at hinf
  | succ fuel ih =>
      intro l hl
      match l with
      | [] =>
          rintro ⟨ds, hne, hds, hinf⟩
          simp [stripCitF] at hinf
      | c :: rest =>
          rcases hm : matchCitAt (c :: rest) with _ | rest2
          · rw [show stripCitF (fuel + 1) (c :: rest) = c :: stripCitF fuel rest from
              by simp [stripCitF, hm]]
            rintro ⟨ds, hne, hds, hinf⟩
            rcases List.infix_cons_iff.mp hinf with hpre | hinf2
            · rcases List.cons_prefix_cons.mp hpre with ⟨hc, hpre2⟩
              have hchars : ∀ x ∈ ds ++ [']'], x ≠ ' ' := by
                intro x hx
                rcases List.mem_append.mp hx with hx | hx
                · intro hsp
                  subst hsp
                  exact absurd (hds ' ' hx) (by decide)
                · simp at hx
                  subst hx
                  decide
              obtain ⟨r', hr'⟩ := keepPrefix_stripCitF fuel rest (ds ++ [']']) hchars hpre2
              obtain ⟨tmc, htmc⟩ := matchCitAt_of_marker ds hne hds r'
              rw [← hc] at hm
              rw [← hr'] at hm
              rw [show (ds ++ [']']) ++ r' = ds ++ ']' :: r' by simp] at hm
              rw [htmc] at hm
              exact absurd hm (by simp)
            · have hlen : rest.length ≤ fuel := by
                simp only [List.length_cons] at hl
                omega
              exact ih rest hlen ⟨ds, hne, hds, hinf2⟩
          · rw [show stripCitF (fuel + 1) (c :: rest) = ' ' :: stripCitF fuel rest2 from
              by simp [stripCitF, hm]]
            rintro ⟨ds, hne, hds, hinf⟩
            rcases List.infix_cons_iff.mp hinf with hpre | hinf2
            · rcases List.cons_prefix_cons.mp hpre with ⟨hc, _⟩
              exact absurd hc (by decide)
            · have hlen2 : rest2.length ≤ fuel := by
                have := matchCitAt_length (c :: rest) rest2 hm
                simp only [List.length_cons] at this hl
                omega
              exact ih rest2 hlen2 ⟨ds, hne, hds, hinf2⟩

theorem stripCitL_noMarker (l : List Char) : ¬ hasMarker (stripCitL l) :=
  stripCitF_noMarker l.length l (le_refl _)

theorem keepPrefix_collapseWsF (fuel : Nat) : ∀ (l s : List Char),
    (∀ c ∈ s, isJsWs c = false) → s <+: collapseWsF fuel l → s <+: l := by
  induction fuel with
  | zero =>
      intro l s hs hp
      simpa [collapseWsF] using hp
  | succ fuel ih =>
      intro l s hs hp
      match l with
      | [] => simpa [collapseWsF] using hp
      | c :: rest =>
          by_cases hc : isJsWs c = true
          · rw [show collapseWsF (fuel + 1) (c :: rest) =
                ' ' :: collapseWsF fuel (rest.dropWhile isJsWs) from
              by simp [collapseWsF, hc]] at hp
            rcases List.prefix_cons_iff.mp hp with h0 | ⟨tl, hseq, _⟩
            · subst h0
              exact List.nil_prefix
            · have : isJsWs ' ' = false := hs ' ' (by rw [hseq]; simp)
              exact absurd this (by decide)
          · rw [show collapseWsF (fuel + 1) (c :: rest) =
                c :: collapseWsF fuel rest from by simp [collapseWsF, hc]] at hp
            rcases List.prefix_cons_iff.mp hp with h0 | ⟨tl, hseq, htp⟩
            · subst h0
              exact List.nil_prefix
            · subst hseq
              exact List.cons_prefix_cons.mpr
                ⟨rfl, ih rest tl (fun x hx => hs x (by simp [hx])) htp⟩

theorem collapseWsF_noMarker (fuel : Nat) : ∀ l : List Char,
    ¬ hasMarker l → ¬ hasMarker (collapseWsF fuel l) := by
  induction fuel with
  | zero =>
      intro l h
      simpa [collapseWsF] using h
  | succ fuel ih =>
      intro l h
      match l with
      | [] =>
          rintro ⟨ds, hne, hds, hinf⟩
          simp [collapseWsF] at hinf
      | c :: rest =>
          by_cases hc : isJsWs c = true
          · rw [show collapseWsF (fuel + 1) (c :: rest) =
                ' ' :: collapseWsF fuel (rest.dropWhile isJsWs) from
              by simp [collapseWsF, hc]]
            rintro ⟨ds, hne, hds, hinf⟩
            rcases List.infix_cons_iff.mp hinf with hpre | hinf2
            · rcases List.cons_prefix_cons.mp hpre with ⟨hcc, _⟩
              exact absurd hcc (by decide)
            · refine ih (rest.dropWhile isJsWs) ?_ ⟨ds, hne, hds, hinf2⟩
              rintro ⟨ds', hne', hds', hinf'⟩
              exact h ⟨ds', hne', hds', hinf'.trans
                (((List.dropWhile_suffix isJsWs).trans
                  (List.suffix_cons c rest)).isInfix)⟩
          · rw [show collapseWsF (fuel + 1) (c :: rest) =
                c :: collapseWsF fuel rest from by simp [collapseWsF, hc]]
            rintro ⟨ds, hne, hds, hinf⟩
            rcases List.infix_cons_iff.mp hinf with hpre | hinf2
            · rcases List.cons_prefix_cons.mp hpre with ⟨hcc, hpre2⟩
              have hchars : ∀ x ∈ ds ++ [']'], isJsWs x = false := by
                intro x hx
                rcases List.mem_append.mp hx with hx | hx
                · exact digit_not_ws x (hds x hx)
                · simp at hx
                  subst hx
                  decide
              have hpr := keepPrefix_collapseWsF fuel rest (ds ++ [']']) hchars hpre2
              refine h ⟨ds, hne, hds, ?_⟩
              exact (List.cons_prefix_cons.mpr ⟨hcc, hpr⟩).isInfix
            · refine ih rest ?_ ⟨ds, hne, hds, hinf2⟩
              rintro ⟨ds', hne', hds', hinf'⟩
              exact h ⟨ds', hne', hds', hinf'.trans (List.suffix_cons c rest).isInfix⟩

theorem stripCitationsStr_noMarker (s : String) :
    ¬ hasMarker (stripCitationsStr s).data := by
  show ¬ hasMarker (jsTrimL (collapseWsL (stripCitL s.data)))
  rintro ⟨ds, hne, hds, hinf⟩
  exact collapseWsF_noMarker _ _ (stripCitL_noMarker s.data)
    ⟨ds, hne, hds, hinf.trans (infix_of_jsTrimL _)⟩

/-! ## Shape of validated results -/

theorem jsTrim_jsTrim (s : String) : jsTrim (jsTrim s) = jsTrim s := by
  show (⟨jsTrimL (jsTrim s).data⟩ : String) = ⟨jsTrimL s.data⟩
  rw [show (jsTrim s).data = jsTrimL s.data from rfl, jsTrimL_idem]

theorem jsTrim_ne_empty {s : String} (h : 0 < (jsTrim s).length) :
    jsTrim s ≠ "" := by
  intro he
  rw [he] at h
  simp at h

theorem validArticle?_spec (j : Json) (a : Article) (h : validArticle? j = some a) :
    jsTrim a.title = a.title ∧ a.title ≠ "" ∧ jsTrim a.url = a.url ∧ a.url ≠ "" := by
  unfold validArticle? at h
  split at h
  · split at h
    · split at h
      · rename_i hcond
        simp only [Option.some.injEq] at h
        subst h
        exact ⟨jsTrim_jsTrim _, jsTrim_ne_empty hcond.1,
          jsTrim_jsTrim _, jsTrim_ne_empty hcond.2⟩
      · exact absurd h (by simp)
    · exact absurd h (by simp)
  · exact absurd h (by simp)

theorem validDefinition?_spec (j : Json) (d : Definition)
    (h : validDefinition? j = some d) :
    jsTrim d.term = d.term ∧ d.term ≠ "" ∧
    jsTrim d.definition = d.definition ∧ d.definition ≠ "" := by
  unfold validDefinition? at h
  split at h
  · split at h
    · split at h
      · rename_i hcond
        simp only [Option.some.injEq] at h
        subst h
        exact ⟨jsTrim_jsTrim _, jsTrim_ne_empty hcond.1,
          jsTrim_jsTrim _, jsTrim_ne_empty hcond.2⟩
      · exact absurd h (by simp)
    · exact absurd h (by simp)
  · exact absurd h (by simp)

theorem validArgument?_spec (j : Json) (s : String) (h : validArgument? j = some s) :
    jsTrim s = s ∧ s ≠ "" := by
  unfold validArgument? at h
  split at h
  · split at h
    · rename_i hcond
      simp only [Option.some.injEq] at h
      subst h
      exact ⟨jsTrim_jsTrim _, jsTrim_ne_empty hcond⟩
    · exact absurd h (by simp)
  · exact absurd h (by simp)

theorem mem_normalizeRelated {j : Option Json} {a : Article}
    (ha : a ∈ normalizeRelated j) : ∃ jv, validArticle? jv = some a := by
  unfold normalizeRelated at ha
  split at ha
  · have h1 := List.mem_of_mem_take (List.mem_filter.mp ha).1
    obtain ⟨jv, _, hjv⟩ := List.mem_filterMap.mp h1
    exact ⟨jv, hjv⟩
  · simp at ha

theorem mem_normalizeDefinitions {j : Option Json} {d : Definition}
    (hd : d ∈ normalizeDefinitions j) : ∃ jv, validDefinition? jv = some d := by
  unfold normalizeDefinitions at hd
  split at hd
  · obtain ⟨jv, _, hjv⟩ := List.mem_filterMap.mp (List.mem_of_mem_take hd)
    exact ⟨jv, hjv⟩
  · simp at hd

theorem mem_normalizeArgumentList {j : Option Json} {s : String}
    (hs : s ∈ normalizeArgumentList j) : ∃ jv, validArgument? jv = some s := by
  unfold normalizeArgumentList at hs
  split at hs
  · obtain ⟨jv, _, hjv⟩ := List.mem_filterMap.mp (List.mem_of_mem_take hs)
    exact ⟨jv, hjv⟩
  · simp at hs

theorem mem_argumentsField {fields : List (String × Json)} {name : String}
    {s : String} (hs : s ∈ argumentsField fields name) :
    ∃ jv, validArgument? jv = some s := by
  unfold argumentsField at hs
  split at hs
  · exact mem_normalizeArgumentList hs
  · simp at hs

theorem normalizeDefinitions_length (j : Option Json) :
    (normalizeDefinitions j).length ≤ 20 := by
  unfold normalizeDefinitions
  split
  · exact List.length_take_le 20 _
  · simp

theorem normalizeArgumentList_length (j : Option Json) :
    (normalizeArgumentList j).length ≤ 20 := by
  unfold normalizeArgumentList
  split
  · exact List.length_take_le 20 _
  · simp

theorem argumentsField_length (fields : List (String × Json)) (name : String) :
    (argumentsField fields name).length ≤ 20 := by
  unfold argumentsField
  split
  · exact normalizeArgumentList_length _
  · simp

/-- Every string field of a normalized result, in one list. -/
def resultStrings (r : AnalysisResult) : List String :=
  r.relatedArticles.map (fun a => a.title) ++ r.relatedArticles.map (fun a => a.url) ++
  r.definitions.map (fun d => d.term) ++ r.definitions.map (fun d => d.definition) ++
  r.arguments.main ++ r.arguments.counter

/-- Every string of a validated result is trimmed and non-empty, and the
definition and argument lists respect their caps. -/
theorem validate_shape (data : Json) (r : AnalysisResult)
    (h : validateAndNormalizeResponse data = some r) :
    r.definitions.length ≤ 20 ∧ r.arguments.main.length ≤ 20 ∧
    r.arguments.counter.length ≤ 20 ∧
    (∀ s ∈ resultStrings r, jsTrim s = s ∧ s ≠ "") := by
  cases data with
  | obj fields =>
      simp only [validateAndNormalizeResponse, Option.some.injEq] at h
      subst h
      refine ⟨normalizeDefinitions_length _, argumentsField_length _ _,
        argumentsField_length _ _, ?_⟩
      intro s hs
      simp only [resultStrings, List.mem_append, List.mem_map] at hs
      rcases hs with ((((⟨a, ha, rfl⟩ | ⟨a, ha, rfl⟩) | ⟨d, hd, rfl⟩) | ⟨d, hd, rfl⟩) |
        hm) | hc
      · obtain ⟨jv, hjv⟩ := mem_normalizeRelated ha
        obtain ⟨h1, h2, _, _⟩ := validArticle?_spec jv a hjv
        exact ⟨h1, h2⟩
      · obtain ⟨jv, hjv⟩ := mem_normalizeRelated ha
        obtain ⟨_, _, h3, h4⟩ := validArticle?_spec jv a hjv
        exact ⟨h3, h4⟩
      · obtain ⟨jv, hjv⟩ := mem_normalizeDefinitions hd
        obtain ⟨h1, h2, _, _⟩ := validDefinition?_spec jv d hjv
        exact ⟨h1, h2⟩
      · obtain ⟨jv, hjv⟩ := mem_normalizeDefinitions hd
        obtain ⟨_, _, h3, h4⟩ := validDefinition?_spec jv d hjv
        exact ⟨h3, h4⟩
      · obtain ⟨jv, hjv⟩ := mem_argumentsField hm
        exact validArgument?_spec jv s hjv
      · obtain ⟨jv, hjv⟩ := mem_argumentsField hc
        exact validArgument?_spec jv s hjv
  | arr items =>
      simp only [validateAndNormalizeResponse, Option.some.injEq] at h
      subst h
      refine ⟨by simp, by simp, by simp, ?_⟩
      intro s hs
      simp [resultStrings] at hs
  | null => simp [validateAndNormalizeResponse] at h
  | bool b => simp [validateAndNormalizeResponse] at h
  | num n => simp [validateAndNormalizeResponse] at h
  | str s => simp [validateAndNormalizeResponse] at h

/-! ## C1 and C7: parseGeminiResponse -/

theorem runTier_some (f : String → Option String) (text : String) (r : AnalysisResult)
    (h : runTier f text = some r) : ∃ j, validateAndNormalizeResponse j = some r := by
  unfold runTier at h
  obtain ⟨s, _, h2⟩ := Option.bind_eq_some.mp h
  obtain ⟨j, _, h3⟩ := Option.bind_eq_some.mp h2
  exact ⟨j, h3⟩

/-- A successful tier value is always a validated value. -/
theorem parseTiers_some (text : String) (r : AnalysisResult)
    (h : parseTiers text = some r) : ∃ j, validateAndNormalizeResponse j = some r := by
  unfold parseTiers at h
  rcases h1 : runTier extractJsonCodeBlock text with _ | r1
  · rw [h1, Option.none_orElse] at h
    rcases h2 : runTier extractCodeBlock text with _ | r2
    · rw [h2, Option.none_orElse] at h
      rcases h3 : runTier extractBraces text with _ | r3
      · rw [h3, Option.none_orElse] at h
        obtain ⟨j, _, hj⟩ := Option.bind_eq_some.mp h
        exact ⟨j, hj⟩
      · rw [h3, Option.some_orElse] at h
        injection h with h
        subst h
        exact runTier_some _ _ _ h3
    · rw [h2, Option.some_orElse] at h
      injection h with h
      subst h
      exact runTier_some _ _ _ h2
  · rw [h1, Option.some_orElse] at h
    injection h with h
    subst h
    exact runTier_some _ _ _ h1

theorem parseGemini_tiers_none (text : String) (h : parseTiers text = none) :
    parseGeminiResponse text = fallbackResponse text := by
  unfold parseGeminiResponse
  rw [h]

theorem parseGemini_tiers_some (text : String) (r₀ : AnalysisResult)
    (h : parseTiers text = some r₀) :
    parseGeminiResponse text = stripCitationsResult r₀ := by
  unfold parseGeminiResponse
  rw [h]

theorem resultStrings_strip (r : AnalysisResult) :
    resultStrings (stripCitationsResult r) = (resultStrings r).map stripCitationsStr := by
  simp only [resultStrings, stripCitationsResult, List.map_map, List.map_append]
  rfl

theorem jsTrim_stripCitationsStr (s : String) :
    jsTrim (stripCitationsStr s) = stripCitationsStr s := by
  show (⟨jsTrimL (stripCitationsStr s).data⟩ : String) = stripCitationsStr s
  rw [show (stripCitationsStr s).data = jsTrimL (collapseWsL (stripCitL s.data))
    from rfl, jsTrimL_idem]
  rfl

/-- C1 (amended): parseGeminiResponse is total and structurally valid:
definitions and each argument list hold at most 20 entries; when a
JSON-extraction tier succeeds the result is the citation-stripped validated
value, whose strings were trimmed and non-empty at validation and stay
trimmed after stripping; when every tier fails the result is the raw-text
fallback carrying the first 500 characters of the input (verbatim, possibly
empty or untrimmed) as the single main argument. -/
theorem parse_gemini_shape (text : String) :
    (parseGeminiResponse text).definitions.length ≤ 20 ∧
    (parseGeminiResponse text).arguments.main.length ≤ 20 ∧
    (parseGeminiResponse text).arguments.counter.length ≤ 20 ∧
    (parseTiers text = none → parseGeminiResponse text = fallbackResponse text) ∧
    (∀ r₀, parseTiers text = some r₀ →
      parseGeminiResponse text = stripCitationsResult r₀ ∧
      (∀ s ∈ resultStrings r₀, jsTrim s = s ∧ s ≠ "") ∧
      (∀ s ∈ resultStrings (parseGeminiResponse text), jsTrim s = s)) := by
  rcases htier : parseTiers text with _ | r₀
  · rw [parseGemini_tiers_none text htier]
    refine ⟨by simp [fallbackResponse], by simp [fallbackResponse],
      by simp [fallbackResponse], fun _ => rfl, ?_⟩
    intro r₀ hr
    exact absurd hr (by simp)
  · have he := parseGemini_tiers_some text r₀ htier
    obtain ⟨j, hj⟩ := parseTiers_some text r₀ htier
    obtain ⟨hl1, hl2, hl3, hstr⟩ := validate_shape j r₀ hj
    rw [he]
    refine ⟨by simpa [stripCitationsResult] using hl1,
      by simpa [stripCitationsResult] using hl2,
      by simpa [stripCitationsResult] using hl3, ?_, ?_⟩
    · intro h0
      exact absurd h0 (by simp)
    · intro r₀' hr'
      injection hr' with hr'
      subst hr'
      refine ⟨rfl, hstr, ?_⟩
      intro s hs
      rw [resultStrings_strip] at hs
      obtain ⟨u, _, rfl⟩ := List.mem_map.mp hs
      exact jsTrim_stripCitationsStr u

/-- Witness for C1's amended theorem: the empty input makes every tier fail
and yields the fallback, whose single main argument is the empty string. -/
theorem parse_gemini_shape_witness :
    parseGeminiResponse "" = fallbackResponse "" ∧
    (parseGeminiResponse "").arguments.main = [""] := by
  have h := (parse_gemini_shape "").2.2.2.1 (by decide)
  exact ⟨h, by rw [h]; rfl⟩

/-- Counterexample for C1 as stated: on the empty input every tier fails and
the fallback places the empty string - not a non-empty trimmed string - as
the single main argument. -/
theorem parse_gemini_cex :
    (parseGeminiResponse "").arguments.main = [""] ∧ ("" : String).length = 0 :=
  ⟨by decide, rfl⟩

/-- C7 (amended): every string field of a result produced through a
successful JSON-extraction tier is free of bracketed citation markers and
whitespace-normalised (single interior spaces, trimmed ends).  The raw-text
fallback is exempt: it is returned verbatim. -/
theorem strip_citations_clean (text : String) (r₀ : AnalysisResult)
    (h : parseTiers text = some r₀) :
    ∀ s ∈ resultStrings (parseGeminiResponse text),
      ¬ hasMarker s.data ∧ wsNormalized s.data := by
  intro s hs
  rw [parseGemini_tiers_some text r₀ h, resultStrings_strip] at hs
  obtain ⟨u, _, rfl⟩ := List.mem_map.mp hs
  exact ⟨stripCitationsStr_noMarker u, stripCitationsStr_wsNormalized u⟩

/-- Counterexample for C7 as stated: when every tier fails, the fallback
keeps the citation marker of the raw text in the returned main argument. -/
theorem strip_citations_cex :
    "see [1]" ∈ resultStrings (parseGeminiResponse "see [1]") ∧
    hasMarker ("see [1]" : String).data :=
  ⟨by decide, ⟨['1'], by decide, by decide, by decide⟩⟩

/-- A response text whose brace tier parses: its main argument carries a
citation marker that normalisation must remove. -/
def tierExampleText : String :=
  "\x7b\"arguments\":\x7b\"main\":[\"a [1] b\"],\"counter\":[]\x7d\x7d"

/-- The validated (pre-stripping) value of the example response. -/
def tierExampleResult : AnalysisResult := ⟨[], [], ⟨["a [1] b"], []⟩⟩

/-- Witness for C7's amended theorem at a concrete tier-succeeding input. -/
theorem strip_citations_clean_witness :
    parseTiers tierExampleText = some tierExampleResult ∧
    (∀ s ∈ resultStrings (parseGeminiResponse tierExampleText),
      ¬ hasMarker s.data ∧ wsNormalized s.data) :=
  ⟨by decide, strip_citations_clean tierExampleText tierExampleResult (by decide)⟩

end DeepDive
